import Mathlib

/-!
Verification of the `holiday` crate: annually recurring calendar patterns
(`DayOfMonth`, `NthWeekdayOfMonth`, their union `HolidayDate`), the
successor/predecessor search (`after`/`before`), the comparison engine and
the windowed bidirectional iterator.

Dates are embedded as year/month/day records over the proleptic Gregorian
calendar (the calendar primitives the crate takes from `chrono`); the
search loops, which are unbounded `loop`s in the source, are embedded with
explicit fuel, and every fallible `chrono` operation (`with_day`,
`with_month`, `with_year`, the panicking `From<u32>` conversions) returns
`Option`.
-/

namespace Holiday

/-! ## Calendar primitives (the `chrono` collaborator) -/

/-- Proleptic Gregorian leap-year test, as in `chrono`. -/
def isLeapYear (y : Int) : Bool :=
  y % 4 == 0 && (y % 100 != 0 || y % 400 == 0)

/-- Number of days in a month of a given year (Gregorian). -/
def daysInMonth (y : Int) (m : Nat) : Nat :=
  if m = 2 then (if isLeapYear y then 29 else 28)
  else if m = 4 ∨ m = 6 ∨ m = 9 ∨ m = 11 then 30
  else 31

/-- A calendar date: year (astronomical numbering), month `1..=12`,
day `1..=daysInMonth`.  This embeds `chrono::NaiveDate`. -/
structure Date where
  year : Int
  month : Nat
  day : Nat
deriving DecidableEq, Repr

/-- A `Date` record denotes an actual calendar date. -/
def Date.Valid (d : Date) : Prop :=
  1 ≤ d.month ∧ d.month ≤ 12 ∧ 1 ≤ d.day ∧ d.day ≤ daysInMonth d.year d.month

instance (d : Date) : Decidable d.Valid := by
  unfold Date.Valid; exact inferInstance

/-- Calendar order on dates (year, then month, then day). -/
def Date.le (a b : Date) : Prop :=
  a.year < b.year ∨ (a.year = b.year ∧
    (a.month < b.month ∨ (a.month = b.month ∧ a.day ≤ b.day)))

/-- Strict calendar order on dates. -/
def Date.lt (a b : Date) : Prop :=
  a.year < b.year ∨ (a.year = b.year ∧
    (a.month < b.month ∨ (a.month = b.month ∧ a.day < b.day)))

instance : LE Date := ⟨Date.le⟩

instance : LT Date := ⟨Date.lt⟩

instance (a b : Date) : Decidable (a ≤ b) := by
  show Decidable (Date.le a b); unfold Date.le; exact inferInstance

instance (a b : Date) : Decidable (a < b) := by
  show Decidable (Date.lt a b); unfold Date.lt; exact inferInstance

theorem Date.le_def (a b : Date) : a ≤ b ↔
    (a.year < b.year ∨ (a.year = b.year ∧
      (a.month < b.month ∨ (a.month = b.month ∧ a.day ≤ b.day)))) := Iff.rfl

theorem Date.lt_def (a b : Date) : a < b ↔
    (a.year < b.year ∨ (a.year = b.year ∧
      (a.month < b.month ∨ (a.month = b.month ∧ a.day < b.day)))) := Iff.rfl

/-- Successor day (`chrono::NaiveDate::succ`). -/
def Date.succ (d : Date) : Date :=
  if d.day < daysInMonth d.year d.month then ⟨d.year, d.month, d.day + 1⟩
  else if d.month < 12 then ⟨d.year, d.month + 1, 1⟩
  else ⟨d.year + 1, 1, 1⟩

/-- Predecessor day (`chrono::NaiveDate::pred`). -/
def Date.pred (d : Date) : Date :=
  if 1 < d.day then ⟨d.year, d.month, d.day - 1⟩
  else if 1 < d.month then ⟨d.year, d.month - 1, daysInMonth d.year (d.month - 1)⟩
  else ⟨d.year - 1, 12, 31⟩

/-- Rata-die count for the first of the month shifted by minus one day:
`civilBase y m + d` is the number of days from 1970-01-01 to the date
`(y, m, d)` (Hinnant's `days_from_civil`, with the day term split off so
that the count is visibly linear in the day). -/
def civilBase (y : Int) (m : Nat) : Int :=
  let y2 : Int := if m ≤ 2 then y - 1 else y
  let era : Int := Int.ediv y2 400
  let yoe : Int := y2 - era * 400
  let mp : Int := if 2 < m then (m : Int) - 3 else (m : Int) + 9
  let doy0 : Int := Int.ediv (153 * mp + 2) 5 - 1
  era * 146097 + (yoe * 365 + Int.ediv yoe 4 - Int.ediv yoe 100 + doy0) - 719468

/-- Number of days from 1970-01-01 (Gregorian, Hinnant's algorithm). -/
def daysFromCivil (y : Int) (m d : Nat) : Int :=
  civilBase y m + d

/-- Day of week of `(y, m, d)` as a number with Sunday = 0 (the value of
`chrono`'s `num_days_from_sunday` for that date); 1970-01-01 was a
Thursday. -/
def weekdayNum (y : Int) (m d : Nat) : Nat :=
  ((daysFromCivil y m d + 4) % 7).toNat

/-- First representable `chrono` date (`chrono::MIN_DATE`):
January 1, 262145 BCE, astronomical year -262144. -/
def minDate : Date := ⟨-262144, 1, 1⟩

/-- Last representable `chrono` date (`chrono::MAX_DATE`):
December 31, 262143 CE. -/
def maxDate : Date := ⟨262143, 12, 31⟩

/-! ## The pattern data model (`lib.rs`) -/

/-- The `chrono::Weekday` enum (Monday-first as in `chrono`). -/
inductive Weekday where
  | mon | tue | wed | thu | fri | sat | sun
deriving DecidableEq, Repr, Fintype

/-- The value of `Weekday::num_days_from_sunday` (Sunday = 0). -/
def Weekday.numDaysFromSunday : Weekday → Nat
  | .sun => 0 | .mon => 1 | .tue => 2 | .wed => 3
  | .thu => 4 | .fri => 5 | .sat => 6

/-- Weekday from its Sunday-based number.  Callers only pass values `< 7`
(`weekdayNum` is an `emod 7`); the wildcard arm is the `6 = Saturday`
case. -/
def Weekday.ofSun (n : Nat) : Weekday :=
  match n with
  | 0 => .sun | 1 => .mon | 2 => .tue | 3 => .wed
  | 4 => .thu | 5 => .fri | _ => .sat

/-- Weekday of a `Date` (`chrono::Datelike::weekday`). -/
def Date.weekday (d : Date) : Weekday :=
  Weekday.ofSun (weekdayNum d.year d.month d.day)

/-- The `Month` enum of `lib.rs` (January = 1). -/
inductive Month where
  | january | february | march | april | may | june
  | july | august | september | october | november | december
deriving DecidableEq, Repr, Fintype

/-- Numeric value of a month (`Month as u32`, January = 1). -/
def Month.toU32 : Month → Nat
  | .january => 1 | .february => 2 | .march => 3 | .april => 4
  | .may => 5 | .june => 6 | .july => 7 | .august => 8
  | .september => 9 | .october => 10 | .november => 11 | .december => 12

/-- The `From<u32> for Month` conversion of `lib.rs`; the source dies on
any value outside `1..=12`, embedded as `none`. -/
def Month.fromU32 : Nat → Option Month
  | 1 => some .january | 2 => some .february | 3 => some .march
  | 4 => some .april | 5 => some .may | 6 => some .june
  | 7 => some .july | 8 => some .august | 9 => some .september
  | 10 => some .october | 11 => some .november | 12 => some .december
  | _ => none

/-- The `NthWeekday` ordinal enum of `lib.rs` (numeric encoding 1..6). -/
inductive NthWeekday where
  | first | second | third | fourth | fifth | last
deriving DecidableEq, Repr, Fintype

/-- Numeric value of an ordinal (`NthWeekday as u32`). -/
def NthWeekday.toU32 : NthWeekday → Nat
  | .first => 1 | .second => 2 | .third => 3
  | .fourth => 4 | .fifth => 5 | .last => 6

/-- The `From<u32> for NthWeekday` conversion of `lib.rs`: dies on 0
(embedded as `none`), maps 1..5 to the numbered ordinals, and everything
else to `Last`. -/
def NthWeekday.fromU32 : Nat → Option NthWeekday
  | 0 => none
  | 1 => some .first | 2 => some .second | 3 => some .third
  | 4 => some .fourth | 5 => some .fifth
  | _ => some .last

/-- A fixed day of the month (`DayOfMonth` in `lib.rs`). -/
structure DayOfMonth where
  day : Nat
  month : Month
deriving DecidableEq, Repr

/-- The nth weekday of a month (`NthWeekdayOfMonth` in `lib.rs`). -/
structure NthWeekdayOfMonth where
  nth : NthWeekday
  weekday : Weekday
  month : Month
deriving DecidableEq, Repr

/-- The `HolidayDate` union of `lib.rs`. -/
inductive HolidayDate where
  | fixedDate (dom : DayOfMonth)
  | nthDate (nw : NthWeekdayOfMonth)
deriving DecidableEq, Repr

/-- A named pattern (`Holiday<S>` in `lib.rs`, with `S` a string type). -/
structure HolidayC where
  name : String
  date : HolidayDate
deriving DecidableEq, Repr

/-! ## Auxiliary date operations (`before_after.rs`) -/

/-- The `LastDayOfMonth` trait: last date of the date's month, computed in
the source by stepping to the first of the next month (rolling the year
over from December) and taking `pred`. -/
def Date.lastDayOfMonth (d : Date) : Date :=
  if d.month = 12 then Date.pred ⟨d.year + 1, 1, 1⟩
  else Date.pred ⟨d.year, d.month + 1, 1⟩

/-- The `FirstDayOfMonth` trait: first date of the date's month. -/
def Date.firstDayOfMonth (d : Date) : Date :=
  ⟨d.year, d.month, 1⟩

/-- Loop body of `IsLastWeekday::is_last_weekday`: count, walking `succ`
from `cur` while `cur ≤ bound`, the days whose weekday is `w`.  The fuel
only bounds the recursion; for the arguments the source supplies (a valid
date, bound one past its month's end) the loop runs at most 32 times. -/
def islwCount (w : Weekday) (bound : Date) : Nat → Date → Nat
  | 0, _ => 0
  | fuel + 1, cur =>
    if cur ≤ bound then
      (if cur.weekday = w then 1 else 0) + islwCount w bound fuel cur.succ
    else 0

/-- The `IsLastWeekday` trait: scans from the day after `d` through the
day after the last day of `d`'s month (one day of rollover included, as in
the source) and reports whether no scanned day shares `d`'s weekday. -/
def Date.isLastWeekday (d : Date) : Bool :=
  islwCount d.weekday d.lastDayOfMonth.succ 40 d.succ == 0

/-! ## The comparison engine (`eq.rs`) and `From<NaiveDate>` (`lib.rs`) -/

/-- Loop of `From<NaiveDate> for NthWeekdayOfMonth`: walk the days
`1..=dayUpTo` of month `(y, m)` counting those whose weekday is `w`.  (The
source steps `succ` from the first of the month up to the given date,
which visits exactly the in-month days `1..=date.day`.) -/
def countWeekdayUpTo (y : Int) (m : Nat) (w : Weekday) : Nat → Nat
  | 0 => 0
  | dayUpTo + 1 =>
    countWeekdayUpTo y m w dayUpTo +
      (if Weekday.ofSun (weekdayNum y m (dayUpTo + 1)) = w then 1 else 0)

/-- The `From<NaiveDate> for NthWeekdayOfMonth` conversion: the ordinal is
the count of occurrences of the date's weekday from the first of the month
through the date, pushed through the panicking `u32` conversions (embedded
as `Option`). -/
def NthWeekdayOfMonth.fromDate (d : Date) : Option NthWeekdayOfMonth :=
  match NthWeekday.fromU32 (countWeekdayUpTo d.year d.month d.weekday d.day),
        Month.fromU32 d.month with
  | some n, some mo => some ⟨n, d.weekday, mo⟩
  | _, _ => none

/-- The `PartialEq<NaiveDate> for DayOfMonth` equality: month and day both
match. -/
def DayOfMonth.eqDate (p : DayOfMonth) (d : Date) : Bool :=
  p.month.toU32 == d.month && p.day == d.day

/-- The `PartialEq<NaiveDate> for NthWeekdayOfMonth` equality: for a
`Last` ordinal whose weekday matches, delegate to `is_last_weekday`
(note: no month test in that branch, as in the source); otherwise compare
the pattern structurally with the pattern derived from the date. -/
def NthWeekdayOfMonth.eqDate (p : NthWeekdayOfMonth) (d : Date) : Bool :=
  if p.nth == NthWeekday.last && d.weekday == p.weekday then
    d.isLastWeekday
  else
    NthWeekdayOfMonth.fromDate d == some p

/-- The `PartialEq<NaiveDate> for Holiday`/`HolidayDate` dispatch. -/
def HolidayDate.eqDate : HolidayDate → Date → Bool
  | .fixedDate dom, d => dom.eqDate d
  | .nthDate nw, d => nw.eqDate d

/-! ## The successor/predecessor engine (`before_after.rs`)

The source loops are unbounded `loop` expressions; they are embedded with
explicit fuel.  `found` is the loop's `break` value, `panicked` is any
`expect` failure inside the loop body, and `outOfFuel` reports that the
given fuel did not settle the search. -/

/-- Result of a fueled run of an `after`/`before` search loop. -/
inductive SearchOut where
  | found (d : Date)
  | panicked
  | outOfFuel
deriving DecidableEq, Repr

/-- The `with_day` operation of `chrono` (None when the result is not a
real date). -/
def Date.withDay (d : Date) (day : Nat) : Option Date :=
  if (Date.mk d.year d.month day).Valid then some ⟨d.year, d.month, day⟩ else none

/-- The `with_month` operation of `chrono`. -/
def Date.withMonth (d : Date) (m : Nat) : Option Date :=
  if (Date.mk d.year m d.day).Valid then some ⟨d.year, m, d.day⟩ else none

/-- The `with_year` operation of `chrono`. -/
def Date.withYear (d : Date) (y : Int) : Option Date :=
  if (Date.mk y d.month d.day).Valid then some ⟨y, d.month, d.day⟩ else none

/-- Loop of `DayOfMonth::after`: step day-by-day forward until the pattern
equals the date. -/
def DayOfMonth.afterLoop (p : DayOfMonth) : Nat → Date → SearchOut
  | 0, _ => .outOfFuel
  | fuel + 1, c => if p.eqDate c then .found c else p.afterLoop fuel c.succ

/-- The `DayOfMonth::after` search (inclusive of the reference date). -/
def DayOfMonth.after (p : DayOfMonth) (fuel : Nat) (d : Date) : SearchOut :=
  p.afterLoop fuel d

/-- Loop of `DayOfMonth::before`: step day-by-day backward. -/
def DayOfMonth.beforeLoop (p : DayOfMonth) : Nat → Date → SearchOut
  | 0, _ => .outOfFuel
  | fuel + 1, c => if p.eqDate c then .found c else p.beforeLoop fuel c.pred

/-- The `DayOfMonth::before` search (starts at `pred date`, so exclusive
of the reference date). -/
def DayOfMonth.before (p : DayOfMonth) (fuel : Nat) (d : Date) : SearchOut :=
  p.beforeLoop fuel d.pred

/-- One non-matching step of `NthWeekdayOfMonth::after`: jump to the first
of the target month (of this year, or of the next year when the target
month has passed), or else advance one day.  Each `expect` in the source
is an `Option.bind` here. -/
def NthWeekdayOfMonth.afterStep (p : NthWeekdayOfMonth) (c : Date) : Option Date :=
  if c.month < p.month.toU32 then
    (c.withDay 1).bind (fun x => x.withMonth p.month.toU32)
  else if c.month > p.month.toU32 then
    ((c.withDay 1).bind (fun x => x.withMonth p.month.toU32)).bind
      (fun x => x.withYear (c.year + 1))
  else
    some c.succ

/-- Loop of `NthWeekdayOfMonth::after`. -/
def NthWeekdayOfMonth.afterLoop (p : NthWeekdayOfMonth) : Nat → Date → SearchOut
  | 0, _ => .outOfFuel
  | fuel + 1, c =>
    if p.eqDate c then .found c
    else
      match p.afterStep c with
      | some c2 => p.afterLoop fuel c2
      | none => .panicked

/-- The `NthWeekdayOfMonth::after` search. -/
def NthWeekdayOfMonth.after (p : NthWeekdayOfMonth) (fuel : Nat) (d : Date) : SearchOut :=
  p.afterLoop fuel d

/-- One non-matching step of `NthWeekdayOfMonth::before`: move to the last
day of the target month (this year, or the previous year when the
reference month precedes the target month), or else step back one day.
In the month-greater branch the source calls `with_month` WITHOUT
resetting the day first, so the step fails (`expect` dies) whenever the
current day number does not exist in the target month. -/
def NthWeekdayOfMonth.beforeStep (p : NthWeekdayOfMonth) (c : Date) : Option Date :=
  if c.month > p.month.toU32 then
    (c.withMonth p.month.toU32).map Date.lastDayOfMonth
  else if c.month < p.month.toU32 then
    (((c.withDay 1).bind (fun x => x.withMonth p.month.toU32)).bind
      (fun x => x.withYear (c.year - 1))).map Date.lastDayOfMonth
  else
    some c.pred

/-- Loop of `NthWeekdayOfMonth::before`. -/
def NthWeekdayOfMonth.beforeLoop (p : NthWeekdayOfMonth) : Nat → Date → SearchOut
  | 0, _ => .outOfFuel
  | fuel + 1, c =>
    if p.eqDate c then .found c
    else
      match p.beforeStep c with
      | some c2 => p.beforeLoop fuel c2
      | none => .panicked

/-- The `NthWeekdayOfMonth::before` search (starts at `pred date`). -/
def NthWeekdayOfMonth.before (p : NthWeekdayOfMonth) (fuel : Nat) (d : Date) : SearchOut :=
  p.beforeLoop fuel d.pred

/-- The `BeforeAfterDate for HolidayDate` dispatch of `after`. -/
def HolidayDate.after : HolidayDate → Nat → Date → SearchOut
  | .fixedDate dom, fuel, d => dom.after fuel d
  | .nthDate nw, fuel, d => nw.after fuel d

/-- The `BeforeAfterDate for HolidayDate` dispatch of `before`. -/
def HolidayDate.before : HolidayDate → Nat → Date → SearchOut
  | .fixedDate dom, fuel, d => dom.before fuel d
  | .nthDate nw, fuel, d => nw.before fuel d

/-- The `Holiday::in_year` operation: the pattern's occurrence at or after
January 1 of the given year. -/
def HolidayDate.inYear (hd : HolidayDate) (fuel : Nat) (y : Int) : SearchOut :=
  hd.after fuel ⟨y, 1, 1⟩

/-! ## Pattern-vs-pattern ordering (`eq.rs`) -/

/-- The derived `Ord for Month` (by discriminant, January least). -/
def Month.cmp (a b : Month) : Ordering :=
  compare a.toU32 b.toU32

/-- The derived `Ord for NthWeekday` (by discriminant, `First..Fifth`
then `Last`). -/
def NthWeekday.cmp (a b : NthWeekday) : Ordering :=
  compare a.toU32 b.toU32

/-- The `Ord for DayOfMonth`: same month compares by day, otherwise by
month. -/
def DayOfMonth.cmp (a b : DayOfMonth) : Ordering :=
  if a.month == b.month then compare a.day b.day else a.month.cmp b.month

/-- The `Ord for NthWeekdayOfMonth`: month, then ordinal, then weekday
index counted from Sunday. -/
def NthWeekdayOfMonth.cmp (a b : NthWeekdayOfMonth) : Ordering :=
  if a.month == b.month then
    if a.nth == b.nth then
      compare a.weekday.numDaysFromSunday b.weekday.numDaysFromSunday
    else a.nth.cmp b.nth
  else a.month.cmp b.month

/-- The `Ord for HolidayDate`: like variants delegate; a `FixedDate`
sorts before any `NthDate` of the same month and after/before by month
otherwise. -/
def HolidayDate.cmp : HolidayDate → HolidayDate → Ordering
  | .fixedDate a, .fixedDate b => a.cmp b
  | .nthDate a, .nthDate b => a.cmp b
  | .fixedDate a, .nthDate b =>
    if a.month == b.month then .lt else a.month.cmp b.month
  | .nthDate a, .fixedDate b =>
    if a.month == b.month then .gt else a.month.cmp b.month

/-- The `Ord for Holiday`: equal dates break the tie on the name,
otherwise compare the dates. -/
def HolidayC.cmp (a b : HolidayC) : Ordering :=
  if a.date == b.date then compare a.name b.name else a.date.cmp b.date

/-- Non-strict sorting order induced by `HolidayC.cmp`. -/
def HolidayC.leB (a b : HolidayC) : Bool :=
  a.cmp b != Ordering.gt

/-- Stable insertion of a holiday into a sorted list. -/
def insertHoliday (x : HolidayC) : List HolidayC → List HolidayC
  | [] => [x]
  | y :: ys => if x.leB y then x :: y :: ys else y :: insertHoliday x ys

/-- Stable sort by `HolidayC.cmp` (the effect of `Vec::sort`). -/
def sortHolidays : List HolidayC → List HolidayC
  | [] => []
  | x :: xs => insertHoliday x (sortHolidays xs)

/-! ## The windowed bidirectional iterator (`iter.rs`) -/

/-- The mutable state of `HolidayIter`: window bounds and cursor (the
borrowed pattern is passed separately). -/
structure IterState where
  first : Date
  last : Date
  current : Date
deriving DecidableEq, Repr

/-- The `shift_from` bound-widening of `iter.rs`. -/
def IterState.shiftFrom (it : IterState) (date : Date) : IterState :=
  let it1 := if date < it.first then { it with first := date } else it
  if date > it1.last then { it1 with last := date } else it1

/-- The `at` repositioning of `iter.rs`: cursor to the day before the
given date, then widen the bounds around the date.  (`at` is reserved in
Lean, hence the name.) -/
def IterState.atDate (it : IterState) (currentDate : Date) : IterState :=
  ({ it with current := currentDate.pred }).shiftFrom currentDate

/-- The iterator produced by `into_iter`: both bounds and the cursor are
the pattern's first/last representable occurrences.  `none` when the
fueled searches for the bounds do not settle. -/
def iterInit (hd : HolidayDate) (fuel : Nat) : Option IterState :=
  match hd.after fuel minDate, hd.before fuel maxDate with
  | .found f, .found l => some ⟨f, l, f⟩
  | _, _ => none

/-- The forward step (`Iterator::next`): occurrence at or after the day
after the cursor; yield it (and move the cursor) if it is within `last`.
`none` when the inner fueled search does not settle. -/
def iterNext (hd : HolidayDate) (fuel : Nat) (it : IterState) :
    Option (Option Date × IterState) :=
  match hd.after fuel it.current.succ with
  | .found nxt =>
    some (if nxt ≤ it.last then (some nxt, { it with current := nxt }) else (none, it))
  | _ => none

/-- The backward step (`DoubleEndedIterator::next_back`): the source
computes `before(current)` unconditionally, then yields it (moving the
cursor) exactly when `current >= first`. -/
def iterNextBack (hd : HolidayDate) (fuel : Nat) (it : IterState) :
    Option (Option Date × IterState) :=
  match hd.before fuel it.current with
  | .found prev =>
    some (if it.first ≤ it.current then (some prev, { it with current := prev })
          else (none, it))
  | _ => none

/-! ## Basic calendar lemmas -/

theorem daysInMonth_ge (y : Int) (m : Nat) : 28 ≤ daysInMonth y m := by
  unfold daysInMonth
  split
  · split <;> omega
  · split <;> omega

theorem daysInMonth_le (y : Int) (m : Nat) : daysInMonth y m ≤ 31 := by
  unfold daysInMonth
  split
  · split <;> omega
  · split <;> omega

theorem daysInMonth_twelve (y : Int) : daysInMonth y 12 = 31 := rfl

theorem Date.succ_valid {d : Date} (h : d.Valid) : d.succ.Valid := by
  obtain ⟨y, m, dd⟩ := d
  obtain ⟨h1, h2, h3, h4⟩ := h
  have g1 := daysInMonth_ge y (m + 1)
  have g2 := daysInMonth_ge (y + 1) 1
  unfold Date.succ Date.Valid
  simp only at *
  split_ifs with hA hB <;> dsimp only <;> omega

theorem Date.pred_valid {d : Date} (h : d.Valid) : d.pred.Valid := by
  obtain ⟨y, m, dd⟩ := d
  obtain ⟨h1, h2, h3, h4⟩ := h
  have g1 := daysInMonth_ge y (m - 1)
  have g2 := daysInMonth_twelve (y - 1)
  unfold Date.pred Date.Valid
  simp only at *
  split_ifs with hA hB <;> dsimp only <;> omega

theorem Date.lt_succ (d : Date) : d < d.succ := by
  obtain ⟨y, m, dd⟩ := d
  unfold Date.succ
  split_ifs <;> (rw [Date.lt_def]; dsimp only at *; omega)

theorem Date.pred_lt (d : Date) : d.pred < d := by
  obtain ⟨y, m, dd⟩ := d
  unfold Date.pred
  split_ifs <;> (rw [Date.lt_def]; dsimp only at *; omega)

theorem Date.succ_le_of_lt {d x : Date} (hd : d.Valid) (hx : x.Valid)
    (h : d < x) : d.succ ≤ x := by
  obtain ⟨y, m, dd⟩ := d
  obtain ⟨xy, xm, xd⟩ := x
  obtain ⟨h1, h2, h3, h4⟩ := hd
  obtain ⟨g1, g2, g3, g4⟩ := hx
  rw [Date.lt_def] at h
  unfold Date.succ
  simp only at *
  split_ifs with hA hB
  · rw [Date.le_def]; dsimp only; omega
  · -- day is at the month's end: any strictly later valid date is at
    -- least the first of the next month
    rw [Date.le_def]; dsimp only
    by_cases hxy : xy = y
    · subst hxy
      by_cases hxm : xm = m
      · subst hxm; omega
      · omega
    · omega
  · rw [Date.le_def]; dsimp only
    by_cases hxy : xy = y
    · subst hxy
      by_cases hxm : xm = m
      · subst hxm; omega
      · omega
    · omega

theorem Date.le_pred_of_lt {d x : Date} (hx : x.Valid) (h : x < d) :
    x ≤ d.pred := by
  obtain ⟨y, m, dd⟩ := d
  obtain ⟨xy, xm, xd⟩ := x
  obtain ⟨g1, g2, g3, g4⟩ := hx
  have hle := daysInMonth_le xy xm
  rw [Date.lt_def] at h
  unfold Date.pred
  simp only at *
  split_ifs with hA hB
  · rw [Date.le_def]; dsimp only; omega
  · rw [Date.le_def]; dsimp only
    by_cases hxy : xy = y
    · subst hxy
      by_cases hxm : xm = m - 1
      · subst hxm; omega
      · omega
    · omega
  · rw [Date.le_def]; dsimp only
    by_cases hxy : xy = y - 1
    · subst hxy; omega
    · omega

theorem Date.le_refl (d : Date) : d ≤ d := by
  rw [Date.le_def]; omega

theorem Date.le_of_lt {a b : Date} (h : a < b) : a ≤ b := by
  rw [Date.lt_def] at h; rw [Date.le_def]; omega

theorem Date.lt_or_eq_of_le {a b : Date} (h : a ≤ b) : a < b ∨ a = b := by
  obtain ⟨ay, am, ad⟩ := a
  obtain ⟨by', bm, bd⟩ := b
  rw [Date.le_def] at h
  rw [Date.lt_def]
  simp only [Date.mk.injEq]
  dsimp only at *
  omega

theorem Date.lt_of_lt_of_le {a b c : Date} (h1 : a < b) (h2 : b ≤ c) : a < c := by
  rw [Date.lt_def] at *; rw [Date.le_def] at h2; omega

theorem Date.lt_of_le_of_lt {a b c : Date} (h1 : a ≤ b) (h2 : b < c) : a < c := by
  rw [Date.le_def] at h1; rw [Date.lt_def] at *; omega

theorem Date.le_trans {a b c : Date} (h1 : a ≤ b) (h2 : b ≤ c) : a ≤ c := by
  rw [Date.le_def] at *; omega

theorem Date.lt_irrefl (a : Date) : ¬ a < a := by
  rw [Date.lt_def]; omega

/-! ## Weekday and counting lemmas -/

/-- Residue of the month base used to reduce weekday counting to a
7-periodic problem. -/
def wbase (y : Int) (m : Nat) : Nat :=
  ((civilBase y m + 4) % 7).toNat

theorem wbase_lt (y : Int) (m : Nat) : wbase y m < 7 := by
  unfold wbase
  omega

theorem weekdayNum_eq_wbase (y : Int) (m d : Nat) :
    weekdayNum y m d = (wbase y m + d) % 7 := by
  unfold weekdayNum wbase daysFromCivil
  omega

theorem weekdayNum_lt (y : Int) (m d : Nat) : weekdayNum y m d < 7 := by
  unfold weekdayNum
  omega

theorem Weekday.ofSun_eq_iff :
    ∀ n < 7, ∀ w : Weekday, (Weekday.ofSun n = w ↔ n = w.numDaysFromSunday) := by
  decide

theorem Weekday.ofSun_num (w : Weekday) :
    Weekday.ofSun w.numDaysFromSunday = w := by
  cases w <;> rfl

theorem Weekday.numDaysFromSunday_lt (w : Weekday) : w.numDaysFromSunday < 7 := by
  cases w <;> decide

/-- Purely numeric version of the `From<NaiveDate>` counting loop. -/
def countAux (b wn : Nat) : Nat → Nat
  | 0 => 0
  | d + 1 => countAux b wn d + (if (b + (d + 1)) % 7 = wn then 1 else 0)

theorem countWeekdayUpTo_eq_countAux (y : Int) (m : Nat) (w : Weekday) (d : Nat) :
    countWeekdayUpTo y m w d = countAux (wbase y m) w.numDaysFromSunday d := by
  induction d with
  | zero => rfl
  | succ k ih =>
    unfold countWeekdayUpTo countAux
    rw [ih]
    have h := Weekday.ofSun_eq_iff ((wbase y m + (k + 1)) % 7)
      (Nat.mod_lt _ (by omega)) w
    simp only [weekdayNum_eq_wbase, h]

theorem countAux_mod (b wn d : Nat) : countAux b wn d = countAux (b % 7) wn d := by
  induction d with
  | zero => rfl
  | succ k ih =>
    unfold countAux
    rw [ih]
    have hc : (b + (k + 1)) % 7 = (b % 7 + (k + 1)) % 7 := by omega
    rw [hc]

theorem countAux_le_5_bounded :
    ∀ b < 7, ∀ wn < 7, ∀ d < 32, countAux b wn d ≤ 5 := by
  decide

/-- At most five days of any month `1..=31`-day stretch share a weekday. -/
theorem countWeekdayUpTo_le_5 (y : Int) (m : Nat) (w : Weekday) (d : Nat)
    (hd : d ≤ 31) : countWeekdayUpTo y m w d ≤ 5 := by
  rw [countWeekdayUpTo_eq_countAux]
  exact countAux_le_5_bounded _ (wbase_lt y m) _ w.numDaysFromSunday_lt d (by omega)

/-- The date's own day is counted, so the count through day `d ≥ 1` is
positive. -/
theorem countWeekdayUpTo_pos (y : Int) (m d : Nat) (hd : 1 ≤ d) :
    1 ≤ countWeekdayUpTo y m (Weekday.ofSun (weekdayNum y m d)) d := by
  obtain ⟨k, rfl⟩ : ∃ k, d = k + 1 := ⟨d - 1, by omega⟩
  unfold countWeekdayUpTo
  rw [if_pos rfl]
  omega

theorem Month.toU32_bounds (m : Month) : 1 ≤ m.toU32 ∧ m.toU32 ≤ 12 := by
  cases m <;> decide

theorem Month.toU32_inj {a b : Month} (h : a.toU32 = b.toU32) : a = b := by
  revert h
  cases a <;> cases b <;> decide

theorem Month.fromU32_toU32 (m : Month) : Month.fromU32 m.toU32 = some m := by
  cases m <;> rfl

theorem Month.fromU32_of_bounds (n : Nat) (h1 : 1 ≤ n) (h2 : n ≤ 12) :
    ∃ mo : Month, Month.fromU32 n = some mo ∧ mo.toU32 = n := by
  have : ∀ n < 13, 1 ≤ n → ∃ mo : Month, Month.fromU32 n = some mo ∧ mo.toU32 = n := by
    decide
  exact this n (by omega) h1

theorem NthWeekday.toU32_range (n : NthWeekday) : 1 ≤ n.toU32 ∧ n.toU32 ≤ 6 := by
  cases n <;> decide

theorem NthWeekday.fromU32_eq_numbered (n : Nat) (q : NthWeekday)
    (hq : q ≠ .last) : NthWeekday.fromU32 n = some q ↔ n = q.toU32 := by
  rcases n with _ | _ | _ | _ | _ | _ | k <;>
    (revert hq; cases q <;> simp [NthWeekday.fromU32, NthWeekday.toU32])

theorem NthWeekday.fromU32_pos (c : Nat) (hc : 1 ≤ c) :
    ∃ n, NthWeekday.fromU32 c = some n := by
  rcases c with _ | _ | _ | _ | _ | _ | k
  · omega
  all_goals exact ⟨_, rfl⟩

/-! ## Characterization of the pattern-vs-date equality -/

/-- What `PartialEq<NaiveDate> for NthWeekdayOfMonth` actually decides:
the weekday must match, and then either the ordinal is `Last` and the
(trailing-rollover) last-weekday check passes — with no constraint on the
month — or the ordinal is numbered, the month matches and the number of
occurrences of the weekday through the date equals the ordinal's rank. -/
theorem NthWeekdayOfMonth.eqDate_characterization (p : NthWeekdayOfMonth)
    (d : Date) (hv : d.Valid) :
    p.eqDate d = true ↔
      (d.weekday = p.weekday ∧
        ((p.nth = .last ∧ d.isLastWeekday = true) ∨
         (p.nth ≠ .last ∧ d.month = p.month.toU32 ∧
           countWeekdayUpTo d.year d.month d.weekday d.day = p.nth.toU32))) := by
  obtain ⟨pn, pw, pm⟩ := p
  obtain ⟨hm1, hm2, hd1, hd2⟩ := hv
  obtain ⟨mo, hmo, hmoU⟩ := Month.fromU32_of_bounds d.month hm1 hm2
  have hcpos : 1 ≤ countWeekdayUpTo d.year d.month d.weekday d.day := by
    simpa [Date.weekday] using countWeekdayUpTo_pos d.year d.month d.day hd1
  obtain ⟨n, hn⟩ := NthWeekday.fromU32_pos _ hcpos
  have hfd : NthWeekdayOfMonth.fromDate d = some ⟨n, d.weekday, mo⟩ := by
    unfold NthWeekdayOfMonth.fromDate
    rw [hn, hmo]
  unfold eqDate
  dsimp only
  by_cases hlast : pn = NthWeekday.last
  · by_cases hw : d.weekday = pw
    · simp [hlast, hw]
    · have hww : (d.weekday == pw) = false := by simp [hw]
      simp only [hlast, beq_self_eq_true, Bool.true_and, hww,
        if_neg Bool.false_ne_true, hfd, beq_iff_eq, Option.some.injEq,
        NthWeekdayOfMonth.mk.injEq]
      constructor
      · rintro ⟨-, h, -⟩
        exact absurd h hw
      · rintro ⟨h, -⟩
        exact absurd h hw
  · have hl : (pn == NthWeekday.last) = false := by simp [hlast]
    simp only [hl, Bool.false_and, if_neg Bool.false_ne_true, hfd,
      beq_iff_eq, Option.some.injEq, NthWeekdayOfMonth.mk.injEq]
    constructor
    · rintro ⟨rfl, hwd, rfl⟩
      refine ⟨hwd, Or.inr ⟨hlast, hmoU.symm, ?_⟩⟩
      exact (NthWeekday.fromU32_eq_numbered _ _ hlast).mp hn
    · rintro ⟨hwd, hq | ⟨-, hmm, hcnt⟩⟩
      · exact absurd hq.1 hlast
      · have h2 := (NthWeekday.fromU32_eq_numbered
          (countWeekdayUpTo d.year d.month d.weekday d.day) pn hlast).mpr hcnt
        rw [h2] at hn
        exact ⟨(Option.some.inj hn).symm, hwd,
          Month.toU32_inj (by rw [hmoU, hmm])⟩

/-- A numbered pattern only ever equals dates in its own month. -/
theorem NthWeekdayOfMonth.eqDate_month {p : NthWeekdayOfMonth} {x : Date}
    (hlast : p.nth ≠ .last) (hx : x.Valid) (h : p.eqDate x = true) :
    x.month = p.month.toU32 := by
  rcases (p.eqDate_characterization x hx).mp h with ⟨-, hq | hq⟩
  · exact absurd hq.1 hlast
  · exact hq.2.1

/-! ## Evaluating the search steps on valid dates -/

theorem Date.le_of_not_lt {a b : Date} (h : ¬ a < b) : b ≤ a := by
  rw [Date.lt_def] at h
  rw [Date.le_def]
  omega

theorem Date.valid_mk (y : Int) (m dd : Nat) (h1 : 1 ≤ m) (h2 : m ≤ 12)
    (h3 : 1 ≤ dd) (h4 : dd ≤ daysInMonth y m) : (Date.mk y m dd).Valid :=
  ⟨h1, h2, h3, h4⟩

theorem Date.lastDayOfMonth_eq (d : Date) (h1 : 1 ≤ d.month) (h2 : d.month ≤ 12) :
    d.lastDayOfMonth = ⟨d.year, d.month, daysInMonth d.year d.month⟩ := by
  unfold lastDayOfMonth
  by_cases h : d.month = 12
  · rw [if_pos h]
    unfold Date.pred
    dsimp only
    rw [if_neg (by omega), if_neg (by omega)]
    rw [h, daysInMonth_twelve]
    simp only [Date.mk.injEq]
    exact ⟨by omega, trivial, trivial⟩
  · rw [if_neg h]
    unfold Date.pred
    dsimp only
    rw [if_neg (by omega), if_pos (by omega)]
    simp only [Date.mk.injEq, Nat.add_sub_cancel]

theorem NthWeekdayOfMonth.afterStep_lt (p : NthWeekdayOfMonth) (c : Date)
    (hc : c.Valid) (h : c.month < p.month.toU32) :
    p.afterStep c = some ⟨c.year, p.month.toU32, 1⟩ := by
  have hb := Month.toU32_bounds p.month
  have g2 := daysInMonth_ge c.year p.month.toU32
  have h1 : (Date.mk c.year c.month 1).Valid :=
    Date.valid_mk _ _ _ hc.1 hc.2.1 (Nat.le_refl 1)
      (by have := daysInMonth_ge c.year c.month; omega)
  have h2 : (Date.mk c.year p.month.toU32 1).Valid :=
    Date.valid_mk _ _ _ (by omega) (by omega) (Nat.le_refl 1) (by omega)
  unfold afterStep
  rw [if_pos h]
  unfold Date.withDay
  rw [if_pos h1]
  show Date.withMonth _ _ = _
  unfold Date.withMonth
  dsimp only
  rw [if_pos h2]

theorem NthWeekdayOfMonth.afterStep_gt (p : NthWeekdayOfMonth) (c : Date)
    (hc : c.Valid) (h : c.month > p.month.toU32) :
    p.afterStep c = some ⟨c.year + 1, p.month.toU32, 1⟩ := by
  have hb := Month.toU32_bounds p.month
  have g2 := daysInMonth_ge c.year p.month.toU32
  have g3 := daysInMonth_ge (c.year + 1) p.month.toU32
  have h1 : (Date.mk c.year c.month 1).Valid :=
    Date.valid_mk _ _ _ hc.1 hc.2.1 (Nat.le_refl 1)
      (by have := daysInMonth_ge c.year c.month; omega)
  have h2 : (Date.mk c.year p.month.toU32 1).Valid :=
    Date.valid_mk _ _ _ (by omega) (by omega) (Nat.le_refl 1) (by omega)
  have h3 : (Date.mk (c.year + 1) p.month.toU32 1).Valid :=
    Date.valid_mk _ _ _ (by omega) (by omega) (Nat.le_refl 1) (by omega)
  unfold afterStep
  rw [if_neg (by omega), if_pos h]
  unfold Date.withDay
  rw [if_pos h1]
  show (Date.withMonth _ _).bind _ = _
  unfold Date.withMonth
  dsimp only
  rw [if_pos h2]
  show Date.withYear _ _ = _
  unfold Date.withYear
  dsimp only
  rw [if_pos h3]

theorem NthWeekdayOfMonth.afterStep_eq (p : NthWeekdayOfMonth) (c : Date)
    (h : c.month = p.month.toU32) : p.afterStep c = some c.succ := by
  unfold afterStep
  rw [if_neg (by omega), if_neg (by omega)]

theorem NthWeekdayOfMonth.beforeStep_eq (p : NthWeekdayOfMonth) (c : Date)
    (h : c.month = p.month.toU32) : p.beforeStep c = some c.pred := by
  unfold beforeStep
  rw [if_neg (by omega), if_neg (by omega)]

theorem NthWeekdayOfMonth.beforeStep_gt (p : NthWeekdayOfMonth) (c : Date)
    (h : c.month > p.month.toU32) (hok : (Date.mk c.year p.month.toU32 c.day).Valid) :
    p.beforeStep c =
      some ⟨c.year, p.month.toU32, daysInMonth c.year p.month.toU32⟩ := by
  have hb := Month.toU32_bounds p.month
  unfold beforeStep
  rw [if_pos h]
  unfold Date.withMonth
  rw [if_pos hok]
  show some (Date.lastDayOfMonth _) = _
  rw [Date.lastDayOfMonth_eq _ (by exact hb.1) (by exact hb.2)]

theorem NthWeekdayOfMonth.beforeStep_gt_panic (p : NthWeekdayOfMonth) (c : Date)
    (h : c.month > p.month.toU32)
    (hbad : ¬ (Date.mk c.year p.month.toU32 c.day).Valid) :
    p.beforeStep c = none := by
  unfold beforeStep
  rw [if_pos h]
  unfold Date.withMonth
  rw [if_neg hbad]
  rfl

theorem NthWeekdayOfMonth.beforeStep_lt (p : NthWeekdayOfMonth) (c : Date)
    (hc : c.Valid) (h : c.month < p.month.toU32) :
    p.beforeStep c =
      some ⟨c.year - 1, p.month.toU32, daysInMonth (c.year - 1) p.month.toU32⟩ := by
  have hb := Month.toU32_bounds p.month
  have g2 := daysInMonth_ge c.year p.month.toU32
  have g3 := daysInMonth_ge (c.year - 1) p.month.toU32
  have h1 : (Date.mk c.year c.month 1).Valid :=
    Date.valid_mk _ _ _ hc.1 hc.2.1 (Nat.le_refl 1)
      (by have := daysInMonth_ge c.year c.month; omega)
  have h2 : (Date.mk c.year p.month.toU32 1).Valid :=
    Date.valid_mk _ _ _ (by omega) (by omega) (Nat.le_refl 1) (by omega)
  have h3 : (Date.mk (c.year - 1) p.month.toU32 1).Valid :=
    Date.valid_mk _ _ _ (by omega) (by omega) (Nat.le_refl 1) (by omega)
  unfold beforeStep
  rw [if_neg (by omega), if_pos h]
  unfold Date.withDay
  rw [if_pos h1]
  show ((Date.withMonth _ _).bind _).map _ = _
  unfold Date.withMonth
  dsimp only
  rw [if_pos h2]
  show (Date.withYear _ _).map _ = _
  unfold Date.withYear
  dsimp only
  rw [if_pos h3]
  show some (Date.lastDayOfMonth _) = _
  rw [Date.lastDayOfMonth_eq _ (by exact hb.1) (by exact hb.2)]

/-! ## Step specifications: each non-matching step of the search moves
strictly in the search direction and skips no date the pattern equals
(for numbered ordinals). -/

theorem NthWeekdayOfMonth.afterStep_spec (p : NthWeekdayOfMonth) (c c2 : Date)
    (hlast : p.nth ≠ .last) (hc : c.Valid) (hne : p.eqDate c = false)
    (hstep : p.afterStep c = some c2) :
    c2.Valid ∧ c < c2 ∧ ∀ x, x.Valid → c ≤ x → x < c2 → p.eqDate x = false := by
  have hb := Month.toU32_bounds p.month
  rcases Nat.lt_trichotomy c.month p.month.toU32 with h | h | h
  · rw [afterStep_lt p c hc h] at hstep
    obtain rfl : c2 = ⟨c.year, p.month.toU32, 1⟩ := (Option.some.inj hstep).symm
    refine ⟨Date.valid_mk _ _ _ (by omega) (by omega) (by omega)
        (by have := daysInMonth_ge c.year p.month.toU32; omega), ?_, ?_⟩
    · rw [Date.lt_def]; dsimp only; omega
    · intro x hx hcx hxc
      by_contra hT
      have hT2 : p.eqDate x = true := by
        revert hT; cases (p.eqDate x) <;> simp
      have hm := eqDate_month hlast hx hT2
      obtain ⟨xy, xm, xd⟩ := x
      obtain ⟨x1, x2, x3, x4⟩ := hx
      rw [Date.le_def] at hcx
      rw [Date.lt_def] at hxc
      dsimp only at *
      omega
  · rw [afterStep_eq p c h] at hstep
    obtain rfl : c2 = c.succ := (Option.some.inj hstep).symm
    refine ⟨Date.succ_valid hc, Date.lt_succ c, ?_⟩
    intro x hx hcx hxc
    rcases Date.lt_or_eq_of_le hcx with hlt | rfl
    · have := Date.succ_le_of_lt hc hx hlt
      exact absurd (Date.lt_of_lt_of_le hxc this) (Date.lt_irrefl _)
    · exact hne
  · rw [afterStep_gt p c hc h] at hstep
    obtain rfl : c2 = ⟨c.year + 1, p.month.toU32, 1⟩ := (Option.some.inj hstep).symm
    refine ⟨Date.valid_mk _ _ _ (by omega) (by omega) (by omega)
        (by have := daysInMonth_ge (c.year + 1) p.month.toU32; omega), ?_, ?_⟩
    · rw [Date.lt_def]; dsimp only; omega
    · intro x hx hcx hxc
      by_contra hT
      have hT2 : p.eqDate x = true := by
        revert hT; cases (p.eqDate x) <;> simp
      have hm := eqDate_month hlast hx hT2
      obtain ⟨xy, xm, xd⟩ := x
      obtain ⟨x1, x2, x3, x4⟩ := hx
      rw [Date.le_def] at hcx
      rw [Date.lt_def] at hxc
      dsimp only at *
      omega

theorem NthWeekdayOfMonth.beforeStep_spec (p : NthWeekdayOfMonth) (c c2 : Date)
    (hlast : p.nth ≠ .last) (hc : c.Valid) (hne : p.eqDate c = false)
    (hstep : p.beforeStep c = some c2) :
    c2.Valid ∧ c2 < c ∧ ∀ x, x.Valid → c2 < x → x ≤ c → p.eqDate x = false := by
  have hb := Month.toU32_bounds p.month
  rcases Nat.lt_trichotomy c.month p.month.toU32 with h | h | h
  · rw [beforeStep_lt p c hc h] at hstep
    obtain rfl : c2 = ⟨c.year - 1, p.month.toU32,
        daysInMonth (c.year - 1) p.month.toU32⟩ := (Option.some.inj hstep).symm
    refine ⟨Date.valid_mk _ _ _ (by omega) (by omega)
        (by have := daysInMonth_ge (c.year - 1) p.month.toU32; omega) (Nat.le_refl _),
      ?_, ?_⟩
    · rw [Date.lt_def]; dsimp only; omega
    · intro x hx hc2x hxc
      by_contra hT
      have hT2 : p.eqDate x = true := by
        revert hT; cases (p.eqDate x) <;> simp
      have hm := eqDate_month hlast hx hT2
      obtain ⟨xy, xm, xd⟩ := x
      obtain ⟨x1, x2, x3, x4⟩ := hx
      rw [Date.lt_def] at hc2x
      rw [Date.le_def] at hxc
      dsimp only at *
      subst hm
      by_cases hxy : xy = c.year - 1
      · subst hxy; omega
      · omega
  · rw [beforeStep_eq p c h] at hstep
    obtain rfl : c2 = c.pred := (Option.some.inj hstep).symm
    refine ⟨Date.pred_valid hc, Date.pred_lt c, ?_⟩
    intro x hx hc2x hxc
    rcases Date.lt_or_eq_of_le hxc with hlt | rfl
    · have := Date.le_pred_of_lt hx hlt
      exact absurd (Date.lt_of_lt_of_le hc2x this) (Date.lt_irrefl _)
    · exact hne
  · by_cases hok : (Date.mk c.year p.month.toU32 c.day).Valid
    · rw [beforeStep_gt p c h hok] at hstep
      obtain rfl : c2 = ⟨c.year, p.month.toU32,
          daysInMonth c.year p.month.toU32⟩ := (Option.some.inj hstep).symm
      refine ⟨Date.valid_mk _ _ _ (by omega) (by omega)
          (by have := daysInMonth_ge c.year p.month.toU32; omega) (Nat.le_refl _),
        ?_, ?_⟩
      · rw [Date.lt_def]; dsimp only; omega
      · intro x hx hc2x hxc
        by_contra hT
        have hT2 : p.eqDate x = true := by
          revert hT; cases (p.eqDate x) <;> simp
        have hm := eqDate_month hlast hx hT2
        obtain ⟨xy, xm, xd⟩ := x
        obtain ⟨x1, x2, x3, x4⟩ := hx
        rw [Date.lt_def] at hc2x
        rw [Date.le_def] at hxc
        dsimp only at *
        subst hm
        by_cases hxy : xy = c.year
        · subst hxy; omega
        · omega
    · rw [beforeStep_gt_panic p c h hok] at hstep
      exact absurd hstep (by simp)

/-! ## Loop specifications -/

theorem NthWeekdayOfMonth.afterLoop_spec (p : NthWeekdayOfMonth)
    (hlast : p.nth ≠ .last) :
    ∀ fuel c e, c.Valid → p.afterLoop fuel c = .found e →
      e.Valid ∧ c ≤ e ∧ p.eqDate e = true ∧
        ∀ x, x.Valid → c ≤ x → x < e → p.eqDate x = false := by
  intro fuel
  induction fuel with
  | zero =>
    intro c e _ h
    exact absurd h (by simp [afterLoop])
  | succ f ih =>
    intro c e hc h
    unfold afterLoop at h
    by_cases heq : p.eqDate c = true
    · rw [if_pos heq] at h
      obtain rfl : c = e := by injection h
      refine ⟨hc, Date.le_refl c, heq, ?_⟩
      intro x _ hcx hxe
      exact absurd (Date.lt_of_le_of_lt hcx hxe) (Date.lt_irrefl _)
    · rw [if_neg heq] at h
      have hne : p.eqDate c = false := by
        revert heq; cases (p.eqDate c) <;> simp
      cases hstep : p.afterStep c with
      | none => rw [hstep] at h; exact absurd h (by simp)
      | some c2 =>
        rw [hstep] at h
        obtain ⟨hv2, hlt2, hskip⟩ := p.afterStep_spec c c2 hlast hc hne hstep
        obtain ⟨he, hce, heq2, hx⟩ := ih c2 e hv2 h
        refine ⟨he, Date.le_trans (Date.le_of_lt hlt2) hce, heq2, ?_⟩
        intro x hx2 hcx hxe
        by_cases hxc2 : x < c2
        · exact hskip x hx2 hcx hxc2
        · exact hx x hx2 (Date.le_of_not_lt hxc2) hxe

theorem NthWeekdayOfMonth.beforeLoop_spec (p : NthWeekdayOfMonth)
    (hlast : p.nth ≠ .last) :
    ∀ fuel c e, c.Valid → p.beforeLoop fuel c = .found e →
      e.Valid ∧ e ≤ c ∧ p.eqDate e = true ∧
        ∀ x, x.Valid → e < x → x ≤ c → p.eqDate x = false := by
  intro fuel
  induction fuel with
  | zero =>
    intro c e _ h
    exact absurd h (by simp [beforeLoop])
  | succ f ih =>
    intro c e hc h
    unfold beforeLoop at h
    by_cases heq : p.eqDate c = true
    · rw [if_pos heq] at h
      obtain rfl : c = e := by injection h
      refine ⟨hc, Date.le_refl c, heq, ?_⟩
      intro x _ hex hxc
      exact absurd (Date.lt_of_lt_of_le hex hxc) (Date.lt_irrefl _)
    · rw [if_neg heq] at h
      have hne : p.eqDate c = false := by
        revert heq; cases (p.eqDate c) <;> simp
      cases hstep : p.beforeStep c with
      | none => rw [hstep] at h; exact absurd h (by simp)
      | some c2 =>
        rw [hstep] at h
        obtain ⟨hv2, hlt2, hskip⟩ := p.beforeStep_spec c c2 hlast hc hne hstep
        obtain ⟨he, hce, heq2, hx⟩ := ih c2 e hv2 h
        refine ⟨he, Date.le_trans hce (Date.le_of_lt hlt2), heq2, ?_⟩
        intro x hx2 hex hxc
        by_cases hxc2 : c2 < x
        · exact hskip x hx2 hxc2 hxc
        · exact hx x hx2 hex (Date.le_of_not_lt hxc2)

theorem DayOfMonth.afterLoop_spec_fixed (p : DayOfMonth) :
    ∀ fuel c e, c.Valid → p.afterLoop fuel c = .found e →
      e.Valid ∧ c ≤ e ∧ p.eqDate e = true ∧
        ∀ x, x.Valid → c ≤ x → x < e → p.eqDate x = false := by
  intro fuel
  induction fuel with
  | zero =>
    intro c e _ h
    exact absurd h (by simp [afterLoop])
  | succ f ih =>
    intro c e hc h
    unfold afterLoop at h
    by_cases heq : p.eqDate c = true
    · rw [if_pos heq] at h
      obtain rfl : c = e := by injection h
      refine ⟨hc, Date.le_refl c, heq, ?_⟩
      intro x _ hcx hxe
      exact absurd (Date.lt_of_le_of_lt hcx hxe) (Date.lt_irrefl _)
    · rw [if_neg heq] at h
      have hne : p.eqDate c = false := by
        revert heq; cases (p.eqDate c) <;> simp
      obtain ⟨he, hce, heq2, hx⟩ := ih c.succ e (Date.succ_valid hc) h
      refine ⟨he, Date.le_trans (Date.le_of_lt (Date.lt_succ c)) hce, heq2, ?_⟩
      intro x hx2 hcx hxe
      rcases Date.lt_or_eq_of_le hcx with hlt | rfl
      · exact hx x hx2 (Date.succ_le_of_lt hc hx2 hlt) hxe
      · exact hne

theorem DayOfMonth.beforeLoop_spec_fixed (p : DayOfMonth) :
    ∀ fuel c e, c.Valid → p.beforeLoop fuel c = .found e →
      e.Valid ∧ e ≤ c ∧ p.eqDate e = true ∧
        ∀ x, x.Valid → e < x → x ≤ c → p.eqDate x = false := by
  intro fuel
  induction fuel with
  | zero =>
    intro c e _ h
    exact absurd h (by simp [beforeLoop])
  | succ f ih =>
    intro c e hc h
    unfold beforeLoop at h
    by_cases heq : p.eqDate c = true
    · rw [if_pos heq] at h
      obtain rfl : c = e := by injection h
      refine ⟨hc, Date.le_refl c, heq, ?_⟩
      intro x _ hex hxc
      exact absurd (Date.lt_of_lt_of_le hex hxc) (Date.lt_irrefl _)
    · rw [if_neg heq] at h
      have hne : p.eqDate c = false := by
        revert heq; cases (p.eqDate c) <;> simp
      obtain ⟨he, hce, heq2, hx⟩ := ih c.pred e (Date.pred_valid hc) h
      refine ⟨he, Date.le_trans hce (Date.le_of_lt (Date.pred_lt c)), heq2, ?_⟩
      intro x hx2 hex hxc
      rcases Date.lt_or_eq_of_le hxc with hlt | rfl
      · exact hx x hx2 hex (Date.le_pred_of_lt hx2 hlt)
      · exact hne

/-- A `HolidayDate` pattern whose active variant does not use the `Last`
ordinal (the condition under which the search is faithful to the
the-earliest/latest-match reading). -/
def HolidayDate.NoLast : HolidayDate → Prop
  | .fixedDate _ => True
  | .nthDate nw => nw.nth ≠ .last

instance (hd : HolidayDate) : Decidable hd.NoLast := by
  unfold HolidayDate.NoLast
  cases hd <;> exact inferInstance

/-! ## Claim C1 -/

/-- Claim C1, as stated, is false: for a `Last`-ordinal pattern the
pattern-vs-date equality matches the last weekday of ANY month, and the
month-jumping search skips such matches.  Concretely, for the pattern
Last Tuesday of July, `after` anchored at 2020-01-01 returns 2020-07-28,
yet 2020-01-28 already lies at or after the anchor, is strictly earlier
than the result, and equals the pattern. -/
theorem c1_counterexample :
    NthWeekdayOfMonth.after ⟨.last, .tue, .july⟩ 40 ⟨2020, 1, 1⟩ =
        .found ⟨2020, 7, 28⟩ ∧
      NthWeekdayOfMonth.eqDate ⟨.last, .tue, .july⟩ ⟨2020, 1, 28⟩ = true ∧
      (Date.mk 2020 1 1 ≤ ⟨2020, 1, 28⟩) ∧ (Date.mk 2020 1 28 < ⟨2020, 7, 28⟩) ∧
      (Date.mk 2020 1 28).Valid := by
  exact ⟨by decide, by decide, by decide, by decide, by decide⟩

/-- Claim C1 (amended): for every `DayOfMonth` pattern and every
`NthWeekdayOfMonth` pattern with a numbered ordinal (and the
`HolidayDate` union of such patterns), whenever the fueled search
terminates with a result, `after(p, d)` is the earliest valid date
`e ≥ d` with `p == e` (inclusive of `d`) and `before(p, d)` is the
latest valid date `e < d` with `p == e` (exclusive of `d`).  For
`Last`-ordinal patterns the property fails (see the counterexample). -/
theorem c1_after_before_nearest (hd : HolidayDate) (hnl : hd.NoLast)
    (d : Date) (hv : d.Valid) (fuel : Nat) :
    (∀ e, hd.after fuel d = .found e →
       e.Valid ∧ d ≤ e ∧ hd.eqDate e = true ∧
         ∀ x, x.Valid → d ≤ x → x < e → hd.eqDate x = false) ∧
    (∀ e, hd.before fuel d = .found e →
       e.Valid ∧ e < d ∧ hd.eqDate e = true ∧
         ∀ x, x.Valid → e < x → x < d → hd.eqDate x = false) := by
  constructor
  · intro e h
    cases hd with
    | fixedDate dom => exact dom.afterLoop_spec_fixed fuel d e hv h
    | nthDate nw => exact nw.afterLoop_spec hnl fuel d e hv h
  · intro e h
    cases hd with
    | fixedDate dom =>
      obtain ⟨he, hle, heq, hx⟩ :=
        dom.beforeLoop_spec_fixed fuel d.pred e (Date.pred_valid hv) h
      refine ⟨he, Date.lt_of_le_of_lt hle (Date.pred_lt d), heq, ?_⟩
      intro x hx2 hex hxd
      exact hx x hx2 hex (Date.le_pred_of_lt hx2 hxd)
    | nthDate nw =>
      obtain ⟨he, hle, heq, hx⟩ :=
        nw.beforeLoop_spec hnl fuel d.pred e (Date.pred_valid hv) h
      refine ⟨he, Date.lt_of_le_of_lt hle (Date.pred_lt d), heq, ?_⟩
      intro x hx2 hex hxd
      exact hx x hx2 hex (Date.le_pred_of_lt hx2 hxd)

/-- Witness for the amended C1, on Thanksgiving (4th Thursday of
November) anchored at 2020-11-01: `after` yields 2020-11-26 (a match, at
or after the anchor, with the intermediate Thursday 2020-11-19 not
matching), `before` yields 2019-11-28 (a match, strictly before the
anchor, with the intermediate 2020-01-15 not matching). -/
theorem c1_after_before_nearest_witness :
    ((Date.mk 2020 11 26).Valid ∧ (Date.mk 2020 11 1 ≤ ⟨2020, 11, 26⟩) ∧
      HolidayDate.eqDate (.nthDate ⟨.fourth, .thu, .november⟩) ⟨2020, 11, 26⟩ = true ∧
      HolidayDate.eqDate (.nthDate ⟨.fourth, .thu, .november⟩) ⟨2020, 11, 19⟩ = false) ∧
    ((Date.mk 2019 11 28).Valid ∧ (Date.mk 2019 11 28 < ⟨2020, 11, 1⟩) ∧
      HolidayDate.eqDate (.nthDate ⟨.fourth, .thu, .november⟩) ⟨2019, 11, 28⟩ = true ∧
      HolidayDate.eqDate (.nthDate ⟨.fourth, .thu, .november⟩) ⟨2020, 1, 15⟩ = false) := by
  obtain ⟨hA, hB⟩ := c1_after_before_nearest
    (.nthDate ⟨.fourth, .thu, .november⟩) (by decide) ⟨2020, 11, 1⟩ (by decide) 60
  obtain ⟨h1, h2, h3, h4⟩ := hA ⟨2020, 11, 26⟩ (by decide)
  obtain ⟨g1, g2, g3, g4⟩ := hB ⟨2019, 11, 28⟩ (by decide)
  exact ⟨⟨h1, h2, h3, h4 ⟨2020, 11, 19⟩ (by decide) (by decide) (by decide)⟩,
    ⟨g1, g2, g3, g4 ⟨2020, 1, 15⟩ (by decide) (by decide) (by decide)⟩⟩

/-! ## Claim C2 -/

/-- Claim C2 is violated by the code: `NthWeekdayOfMonth::before` panics
on valid input.  For the pattern First Monday of February and reference
date 2020-06-01, the search starts at the predecessor 2020-05-31 and the
month-greater branch calls `with_month(2)` on a day-31 date, producing the
invalid February 31 — the `expect` dies.  (The day of the month of the
reference's predecessor does matter, contradicting the claim.) -/
theorem c2_before_panics :
    NthWeekdayOfMonth.before ⟨.first, .mon, .february⟩ 10 ⟨2020, 6, 1⟩ =
        .panicked ∧
      (Date.mk 2020 6 1).Valid ∧
      NthWeekdayOfMonth.before ⟨.first, .mon, .february⟩ 1000 ⟨2020, 6, 1⟩ =
        .panicked := by
  exact ⟨by decide, by decide, by decide⟩

/-! ## Claim C3 -/

/-- Claim C3 is violated by the code: the pattern Last Sunday of July
matches NO date of July 2021.  The final Sunday of July 2021 is the 25th
(it is a Sunday and none of July 26–31 is), but `is_last_weekday` also
scans the rollover day 2021-08-01, which is again a Sunday, so the
equality rejects 2021-07-25 — and with it every day of the month. -/
theorem c3_last_sunday_july_2021_matches_nothing :
    ((List.range 31).all fun i =>
        !(NthWeekdayOfMonth.eqDate ⟨.last, .sun, .july⟩ ⟨2021, 7, i + 1⟩)) = true ∧
      Date.weekday ⟨2021, 7, 25⟩ = .sun ∧
      ((List.range 6).all fun i =>
        !(Date.weekday ⟨2021, 7, 26 + i⟩ == Weekday.sun)) = true ∧
      Date.weekday ⟨2021, 8, 1⟩ = .sun ∧
      Date.isLastWeekday ⟨2021, 7, 25⟩ = false := by
  exact ⟨by decide, by decide, by decide, by decide, by decide⟩

/-! ## Claim C4 (counterexample part) -/

set_option maxRecDepth 100000 in
/-- Claim C4, as stated, is false: a `Fifth`-ordinal pattern can force the
search across several candidate months in successive years.  For the
pattern Fifth Wednesday of December anchored at 2022-01-01 the search is
still running after 64 loop iterations (more than one candidate month's
scan plus one year-jump can consume) and only succeeds — four Decembers
later — at 2025-12-31. -/
theorem c4_counterexample :
    NthWeekdayOfMonth.after ⟨.fifth, .wed, .december⟩ 64 ⟨2022, 1, 1⟩ =
        .outOfFuel ∧
      NthWeekdayOfMonth.after ⟨.fifth, .wed, .december⟩ 200 ⟨2022, 1, 1⟩ =
        .found ⟨2025, 12, 31⟩ := by
  exact ⟨by decide, by decide⟩

/-! ## Claim C5 -/

/-- Claim C5, as stated, is false: the `Last` branch of the equality never
tests the month.  The pattern Last Tuesday of July equals 2020-06-30
(a Tuesday, final one of June 2020), although June is not July. -/
theorem c5_counterexample :
    NthWeekdayOfMonth.eqDate ⟨.last, .tue, .july⟩ ⟨2020, 6, 30⟩ = true ∧
      (Date.mk 2020 6 30).month ≠ (Month.july).toU32 ∧
      (Date.mk 2020 6 30).Valid := by
  exact ⟨by decide, by decide, by decide⟩

/-- Claim C5 (amended): an `NthWeekdayOfMonth` equals a concrete (valid)
date iff the date's weekday matches and then EITHER the ordinal is `Last`
and the trailing-rollover last-weekday check passes — with no test of the
month — OR the ordinal is numbered, the date's month equals the pattern's
month, and the count of occurrences of the weekday from day 1 of the
date's month through the date equals the ordinal's rank. -/
theorem c5_eq_characterization (p : NthWeekdayOfMonth) (d : Date)
    (hv : d.Valid) :
    p.eqDate d = true ↔
      (d.weekday = p.weekday ∧
        ((p.nth = .last ∧ d.isLastWeekday = true) ∨
         (p.nth ≠ .last ∧ d.month = p.month.toU32 ∧
           countWeekdayUpTo d.year d.month d.weekday d.day = p.nth.toU32))) :=
  NthWeekdayOfMonth.eqDate_characterization p d hv

/-- Witness for the amended C5 at Thanksgiving 2020. -/
theorem c5_eq_characterization_witness :
    (Date.mk 2020 11 26).Valid ∧
      (NthWeekdayOfMonth.eqDate ⟨.fourth, .thu, .november⟩ ⟨2020, 11, 26⟩ = true ↔
        ((Date.mk 2020 11 26).weekday = Weekday.thu ∧
          ((NthWeekday.fourth = .last ∧
              (Date.mk 2020 11 26).isLastWeekday = true) ∨
           (NthWeekday.fourth ≠ .last ∧
             (Date.mk 2020 11 26).month = (Month.november).toU32 ∧
             countWeekdayUpTo 2020 11 (Date.mk 2020 11 26).weekday 26 =
               (NthWeekday.fourth).toU32)))) :=
  ⟨by decide, c5_eq_characterization ⟨.fourth, .thu, .november⟩ ⟨2020, 11, 26⟩
    (by decide)⟩

/-! ## Claim C10 -/

set_option maxRecDepth 100000 in
/-- Claim C10: `in_year(p, y)` is by definition `after(p, January 1 of
year y)`; consequently the result can fall in a strictly later year when
year `y` has no occurrence — the pattern Fifth Wednesday of December
resolved for 2022 yields 2025-12-31 rather than failing or returning a
2022 date. -/
theorem c10_in_year_is_after_jan1 :
    (∀ (hd : HolidayDate) (fuel : Nat) (y : Int),
        hd.inYear fuel y = hd.after fuel ⟨y, 1, 1⟩) ∧
      HolidayDate.inYear (.nthDate ⟨.fifth, .wed, .december⟩) 200 2022 =
        .found ⟨2025, 12, 31⟩ ∧
      (2022 : Int) < 2025 := by
  exact ⟨fun hd fuel y => rfl, by decide, by decide⟩

/-! ## Claim C6 -/

/-- The month number a `HolidayDate` is anchored to. -/
def HolidayDate.monthNum : HolidayDate → Nat
  | .fixedDate dom => dom.month.toU32
  | .nthDate nw => nw.month.toU32

theorem Month.cmp_lt_of_lt :
    ∀ m1 m2 : Month, m1.toU32 < m2.toU32 →
      ((m1 == m2) = false ∧ m1.cmp m2 = .lt) := by
  decide

/-- The named holiday constants exercised by the sorting scenario
(`holidays/global.rs` and `holidays/united_states.rs`). -/
def NEW_YEARS_DAY : HolidayC := ⟨"New Year\x27s Day", .fixedDate ⟨1, .january⟩⟩

/-- Halloween: October 31. -/
def HALLOWEEN : HolidayC := ⟨"Halloween", .fixedDate ⟨31, .october⟩⟩

/-- Thanksgiving: 4th Thursday in November. -/
def THANKSGIVING : HolidayC := ⟨"Thanksgiving", .nthDate ⟨.fourth, .thu, .november⟩⟩

/-- Christmas: December 25. -/
def CHRISTMAS : HolidayC := ⟨"Christmas", .fixedDate ⟨25, .december⟩⟩

/-- New Year's Eve: December 31. -/
def NEW_YEARS_EVE : HolidayC := ⟨"New Year\x27s Eve", .fixedDate ⟨31, .december⟩⟩

/-- Claim C6: the pattern ordering compares primarily by month; within a
month a `FixedDate` sorts before any `NthDate` (and an `NthDate` after
any `FixedDate`); two `DayOfMonth`s in one month compare by day; two
`NthWeekdayOfMonth`s in one month compare by ordinal rank then by the
weekday index counted from Sunday; and sorting the five named holidays
yields them in month-ascending order. -/
theorem c6_ordering :
    (∀ a b : HolidayDate, a.monthNum < b.monthNum → a.cmp b = .lt) ∧
    (∀ (dom : DayOfMonth) (nw : NthWeekdayOfMonth), dom.month = nw.month →
       HolidayDate.cmp (.fixedDate dom) (.nthDate nw) = .lt ∧
       HolidayDate.cmp (.nthDate nw) (.fixedDate dom) = .gt) ∧
    (∀ d1 d2 : DayOfMonth, d1.month = d2.month →
       d1.cmp d2 = compare d1.day d2.day) ∧
    (∀ n1 n2 : NthWeekdayOfMonth, n1.month = n2.month →
       n1.cmp n2 =
         if n1.nth = n2.nth
         then compare n1.weekday.numDaysFromSunday n2.weekday.numDaysFromSunday
         else compare n1.nth.toU32 n2.nth.toU32) ∧
    sortHolidays [NEW_YEARS_EVE, THANKSGIVING, NEW_YEARS_DAY, HALLOWEEN, CHRISTMAS] =
      [NEW_YEARS_DAY, HALLOWEEN, THANKSGIVING, CHRISTMAS, NEW_YEARS_EVE] := by
  refine ⟨?_, ?_, ?_, ?_, by decide⟩
  · intro a b h
    cases a with
    | fixedDate d1 =>
      cases b with
      | fixedDate d2 =>
        obtain ⟨hb, hcmp⟩ := Month.cmp_lt_of_lt d1.month d2.month h
        simp [HolidayDate.cmp, DayOfMonth.cmp, hb, hcmp]
      | nthDate n2 =>
        obtain ⟨hb, hcmp⟩ := Month.cmp_lt_of_lt d1.month n2.month h
        simp [HolidayDate.cmp, hb, hcmp]
    | nthDate n1 =>
      cases b with
      | fixedDate d2 =>
        obtain ⟨hb, hcmp⟩ := Month.cmp_lt_of_lt n1.month d2.month h
        simp [HolidayDate.cmp, hb, hcmp]
      | nthDate n2 =>
        obtain ⟨hb, hcmp⟩ := Month.cmp_lt_of_lt n1.month n2.month h
        simp [HolidayDate.cmp, NthWeekdayOfMonth.cmp, hb, hcmp]
  · intro dom nw h
    constructor
    · simp [HolidayDate.cmp, h]
    · simp [HolidayDate.cmp, h]
  · intro d1 d2 h
    simp [DayOfMonth.cmp, h]
  · intro n1 n2 h
    by_cases hn : n1.nth = n2.nth
    · simp [NthWeekdayOfMonth.cmp, h, hn]
    · have hb : (n1.nth == n2.nth) = false := by simp [hn]
      simp [NthWeekdayOfMonth.cmp, h, hb, hn, NthWeekday.cmp]

/-- Witness for C6, instantiating each conditional conjunct. -/
theorem c6_ordering_witness :
    (HolidayDate.cmp (.fixedDate ⟨31, .october⟩) (.nthDate ⟨.fourth, .thu, .november⟩) =
        .lt) ∧
    (HolidayDate.cmp (.fixedDate ⟨31, .october⟩) (.nthDate ⟨.last, .fri, .october⟩) =
        .lt ∧
      HolidayDate.cmp (.nthDate ⟨.last, .fri, .october⟩) (.fixedDate ⟨31, .october⟩) =
        .gt) ∧
    DayOfMonth.cmp ⟨25, .december⟩ ⟨31, .december⟩ = compare 25 31 ∧
    NthWeekdayOfMonth.cmp ⟨.first, .mon, .may⟩ ⟨.second, .tue, .may⟩ =
      (if (NthWeekday.first = NthWeekday.second)
       then compare (Weekday.mon).numDaysFromSunday (Weekday.tue).numDaysFromSunday
       else compare (NthWeekday.first).toU32 (NthWeekday.second).toU32) := by
  obtain ⟨h1, h2, h3, h4, -⟩ := c6_ordering
  exact ⟨h1 _ _ (by decide), h2 ⟨31, .october⟩ ⟨.last, .fri, .october⟩ rfl,
    h3 ⟨25, .december⟩ ⟨31, .december⟩ rfl,
    h4 ⟨.first, .mon, .may⟩ ⟨.second, .tue, .may⟩ rfl⟩

/-! ## Claim C8 -/

/-- Take `n` forward steps of the iterator, collecting the yields. -/
def iterTakeFwd (hd : HolidayDate) (fuel : Nat) :
    Nat → IterState → Option (List (Option Date) × IterState)
  | 0, it => some ([], it)
  | n + 1, it =>
    (iterNext hd fuel it).bind fun r =>
      (iterTakeFwd hd fuel n r.2).map fun rest => (r.1 :: rest.1, rest.2)

set_option maxRecDepth 100000 in
/-- Claim C8: the iterator over First Wednesday of January, built with the
default bounds and repositioned with `at(2020-01-01)`, yields on four
successive forward steps 2020-01-01, 2021-01-06, 2022-01-05 and
2023-01-04. -/
theorem c8_iterator_scenario :
    ((iterInit (.nthDate ⟨.first, .wed, .january⟩) 100).bind fun it =>
        (iterTakeFwd (.nthDate ⟨.first, .wed, .january⟩) 100 4
            (it.atDate ⟨2020, 1, 1⟩)).map fun r => r.1) =
      some [some ⟨2020, 1, 1⟩, some ⟨2021, 1, 6⟩,
        some ⟨2022, 1, 5⟩, some ⟨2023, 1, 4⟩] := by
  decide

/-! ## Claim C9 -/

theorem Date.not_le_of_lt {a b : Date} (h : a < b) : ¬ b ≤ a := by
  rw [Date.lt_def] at h
  rw [Date.le_def]
  omega

/-- A successful `before` step always moves strictly backwards (any
ordinal, `Last` included). -/
theorem NthWeekdayOfMonth.beforeStep_mono (p : NthWeekdayOfMonth) (c c2 : Date)
    (hc : c.Valid) (hstep : p.beforeStep c = some c2) : c2.Valid ∧ c2 < c := by
  have hb := Month.toU32_bounds p.month
  rcases Nat.lt_trichotomy c.month p.month.toU32 with h | h | h
  · rw [beforeStep_lt p c hc h] at hstep
    obtain rfl : c2 = ⟨c.year - 1, p.month.toU32,
        daysInMonth (c.year - 1) p.month.toU32⟩ := (Option.some.inj hstep).symm
    refine ⟨Date.valid_mk _ _ _ (by omega) (by omega)
        (by have := daysInMonth_ge (c.year - 1) p.month.toU32; omega) (Nat.le_refl _),
      ?_⟩
    rw [Date.lt_def]; dsimp only; omega
  · rw [beforeStep_eq p c h] at hstep
    obtain rfl : c2 = c.pred := (Option.some.inj hstep).symm
    exact ⟨Date.pred_valid hc, Date.pred_lt c⟩
  · by_cases hok : (Date.mk c.year p.month.toU32 c.day).Valid
    · rw [beforeStep_gt p c h hok] at hstep
      obtain rfl : c2 = ⟨c.year, p.month.toU32,
          daysInMonth c.year p.month.toU32⟩ := (Option.some.inj hstep).symm
      refine ⟨Date.valid_mk _ _ _ (by omega) (by omega)
          (by have := daysInMonth_ge c.year p.month.toU32; omega) (Nat.le_refl _),
        ?_⟩
      rw [Date.lt_def]; dsimp only; omega
    · rw [beforeStep_gt_panic p c h hok] at hstep
      exact absurd hstep (by simp)

/-- Any result of a `before` search on a valid reference date is a valid
date strictly before it (any ordinal). -/
theorem NthWeekdayOfMonth.beforeLoop_le (p : NthWeekdayOfMonth) :
    ∀ fuel c e, c.Valid → p.beforeLoop fuel c = .found e → e.Valid ∧ e ≤ c := by
  intro fuel
  induction fuel with
  | zero =>
    intro c e _ h
    exact absurd h (by simp [beforeLoop])
  | succ f ih =>
    intro c e hc h
    unfold beforeLoop at h
    by_cases heq : p.eqDate c = true
    · rw [if_pos heq] at h
      obtain rfl : c = e := by injection h
      exact ⟨hc, Date.le_refl c⟩
    · rw [if_neg heq] at h
      cases hstep : p.beforeStep c with
      | none => rw [hstep] at h; exact absurd h (by simp)
      | some c2 =>
        rw [hstep] at h
        obtain ⟨hv2, hlt2⟩ := p.beforeStep_mono c c2 hc hstep
        obtain ⟨he, hce⟩ := ih c2 e hv2 h
        exact ⟨he, Date.le_trans hce (Date.le_of_lt hlt2)⟩

theorem DayOfMonth.beforeLoop_le_fixed (p : DayOfMonth) :
    ∀ fuel c e, c.Valid → p.beforeLoop fuel c = .found e → e.Valid ∧ e ≤ c := by
  intro fuel
  induction fuel with
  | zero =>
    intro c e _ h
    exact absurd h (by simp [beforeLoop])
  | succ f ih =>
    intro c e hc h
    unfold beforeLoop at h
    by_cases heq : p.eqDate c = true
    · rw [if_pos heq] at h
      obtain rfl : c = e := by injection h
      exact ⟨hc, Date.le_refl c⟩
    · rw [if_neg heq] at h
      obtain ⟨he, hce⟩ := ih c.pred e (Date.pred_valid hc) h
      exact ⟨he, Date.le_trans hce (Date.le_of_lt (Date.pred_lt c))⟩

/-- A successful `before` on any pattern yields a valid date strictly
before the reference date. -/
theorem HolidayDate.before_lt (hd : HolidayDate) (fuel : Nat) (d e : Date)
    (hv : d.Valid) (h : hd.before fuel d = .found e) : e.Valid ∧ e < d := by
  cases hd with
  | fixedDate dom =>
    obtain ⟨he, hle⟩ := dom.beforeLoop_le_fixed fuel d.pred e (Date.pred_valid hv) h
    exact ⟨he, Date.lt_of_le_of_lt hle (Date.pred_lt d)⟩
  | nthDate nw =>
    obtain ⟨he, hle⟩ := nw.beforeLoop_le fuel d.pred e (Date.pred_valid hv) h
    exact ⟨he, Date.lt_of_le_of_lt hle (Date.pred_lt d)⟩

/-- Claim C9: `next_back` runs the `before` search unconditionally, then
yields its result (moving the cursor to it) exactly when the cursor is at
or beyond `first`; the yielded date is strictly earlier than the cursor,
so when the cursor sits exactly at `first`, the yielded occurrence lies
strictly outside the `[first, last]` window and the following backward
step reports exhaustion — exactly one out-of-window date is emitted. -/
theorem c9_next_back_spec (hd : HolidayDate) (fuel : Nat) (it : IterState)
    (hv : it.current.Valid) (e : Date)
    (hb : hd.before fuel it.current = .found e) :
    (iterNextBack hd fuel it =
        some (if it.first ≤ it.current then (some e, { it with current := e })
              else (none, it))) ∧
      e < it.current ∧
      (e < it.first → ∀ fuel2 e2, hd.before fuel2 e = .found e2 →
        iterNextBack hd fuel2 { it with current := e } =
          some (none, { it with current := e })) := by
  refine ⟨?_, (hd.before_lt fuel it.current e hv hb).2, ?_⟩
  · unfold iterNextBack
    rw [hb]
  · intro hef fuel2 e2 hb2
    unfold iterNextBack
    rw [hb2]
    dsimp only
    rw [if_neg (Date.not_le_of_lt hef)]

/-- Witness for C9: Thanksgiving iterator with the cursor at the lower
bound 2020-11-26; the backward step yields the 2019 occurrence, which
lies outside the window, and the step after that yields nothing. -/
theorem c9_next_back_spec_witness :
    (iterNextBack (.nthDate ⟨.fourth, .thu, .november⟩) 100
        ⟨⟨2020, 11, 26⟩, ⟨2022, 11, 24⟩, ⟨2020, 11, 26⟩⟩ =
      some (some ⟨2019, 11, 28⟩,
        ⟨⟨2020, 11, 26⟩, ⟨2022, 11, 24⟩, ⟨2019, 11, 28⟩⟩)) ∧
      (Date.mk 2019 11 28 < ⟨2020, 11, 26⟩) ∧
      iterNextBack (.nthDate ⟨.fourth, .thu, .november⟩) 100
          ⟨⟨2020, 11, 26⟩, ⟨2022, 11, 24⟩, ⟨2019, 11, 28⟩⟩ =
        some (none, ⟨⟨2020, 11, 26⟩, ⟨2022, 11, 24⟩, ⟨2019, 11, 28⟩⟩) := by
  obtain ⟨h1, h2, h3⟩ := c9_next_back_spec (.nthDate ⟨.fourth, .thu, .november⟩) 100
    ⟨⟨2020, 11, 26⟩, ⟨2022, 11, 24⟩, ⟨2020, 11, 26⟩⟩ (by decide)
    ⟨2019, 11, 28⟩ (by decide)
  refine ⟨?_, h2, ?_⟩
  · rw [h1, if_pos (by decide)]
  · exact h3 (by decide) 100 ⟨2018, 11, 22⟩ (by decide)

/-! ## Termination of the search for ordinals First..Fourth (claim C4)

The nth occurrence of any weekday, for n ≤ 4, falls within the first
28 days of the month, so the in-month scan always finds it. -/

theorem rank_day_aux :
    ∀ b < 7, ∀ wn < 7, ∀ r < 5, 1 ≤ r →
      ∃ j, j < 29 ∧ 1 ≤ j ∧ (b + j) % 7 = wn ∧ countAux b wn j = r := by
  have key : ∀ b < 7, ∀ wn < 7, ∀ r < 5, 1 ≤ r →
      ((List.range 29).any fun j => decide (1 ≤ j) && decide ((b + j) % 7 = wn) &&
        decide (countAux b wn j = r)) = true := by decide
  intro b hb wn hwn r hr hr1
  have h2 := key b hb wn hwn r hr hr1
  rw [List.any_eq_true] at h2
  obtain ⟨j, hjmem, hj⟩ := h2
  rw [List.mem_range] at hjmem
  simp only [Bool.and_eq_true, decide_eq_true_eq] at hj
  exact ⟨j, hjmem, hj.1.1, hj.1.2, hj.2⟩

theorem NthWeekday.ne_last_of_le_four {n : NthWeekday} (h : n.toU32 ≤ 4) :
    n ≠ .last := by
  cases n <;> simp_all [NthWeekday.toU32]

/-- For a numbered rank 1..4, every year has a day `j ≤ 28` of the target
month that the pattern equals. -/
theorem NthWeekdayOfMonth.exists_rank_day (p : NthWeekdayOfMonth)
    (hr1 : 1 ≤ p.nth.toU32) (hr4 : p.nth.toU32 ≤ 4) (y : Int) :
    ∃ j, 1 ≤ j ∧ j ≤ 28 ∧ p.eqDate ⟨y, p.month.toU32, j⟩ = true := by
  have hb := Month.toU32_bounds p.month
  have hlast := NthWeekday.ne_last_of_le_four hr4
  obtain ⟨j, hj29, hj1, hw, hc⟩ :=
    rank_day_aux (wbase y p.month.toU32) (wbase_lt _ _)
      p.weekday.numDaysFromSunday p.weekday.numDaysFromSunday_lt
      p.nth.toU32 (by omega) hr1
  have hdim := daysInMonth_ge y p.month.toU32
  have hvj : (Date.mk y p.month.toU32 j).Valid :=
    Date.valid_mk _ _ _ (by omega) (by omega) (by omega) (by omega)
  refine ⟨j, hj1, by omega, ?_⟩
  have hwd : (Date.mk y p.month.toU32 j).weekday = p.weekday := by
    show Weekday.ofSun (weekdayNum y p.month.toU32 j) = p.weekday
    rw [weekdayNum_eq_wbase, hw, Weekday.ofSun_num]
  rw [NthWeekdayOfMonth.eqDate_characterization p _ hvj]
  refine ⟨hwd, Or.inr ⟨hlast, rfl, ?_⟩⟩
  show countWeekdayUpTo y p.month.toU32 ((Date.mk y p.month.toU32 j).weekday) j =
    p.nth.toU32
  rw [hwd, countWeekdayUpTo_eq_countAux, hc]

theorem Date.succ_in_month (y : Int) (m k : Nat)
    (hk : k < daysInMonth y m) : Date.succ ⟨y, m, k⟩ = ⟨y, m, k + 1⟩ := by
  unfold Date.succ
  dsimp only
  rw [if_pos hk]

theorem Date.pred_in_month (y : Int) (m k : Nat) (hk : 2 ≤ k) :
    Date.pred ⟨y, m, k⟩ = ⟨y, m, k - 1⟩ := by
  unfold Date.pred
  dsimp only
  rw [if_pos (by omega)]

/-- Upward in-month scan: if the pattern equals day `j` of its month and
the cursor is at day `k ≤ j` of that month, then `j - k + 1` loop
iterations suffice. -/
theorem NthWeekdayOfMonth.afterLoop_scan_up (p : NthWeekdayOfMonth) (y : Int)
    (j : Nat) (hj : j ≤ 28) (hq : p.eqDate ⟨y, p.month.toU32, j⟩ = true) :
    ∀ f k, 1 ≤ k → k ≤ j → j - k + 1 ≤ f →
      ∃ e, p.afterLoop f ⟨y, p.month.toU32, k⟩ = .found e := by
  intro f
  induction f with
  | zero => intro k _ _ hf; omega
  | succ f2 ih =>
    intro k hk1 hkj hf
    unfold afterLoop
    by_cases heq : p.eqDate ⟨y, p.month.toU32, k⟩ = true
    · exact ⟨_, by rw [if_pos heq]⟩
    · have hkj2 : k < j := by
        rcases Nat.lt_or_ge k j with h | h
        · exact h
        · have : k = j := by omega
          subst this
          exact absurd hq heq
      have hdim := daysInMonth_ge y p.month.toU32
      have hstep : p.afterStep ⟨y, p.month.toU32, k⟩ =
          some ⟨y, p.month.toU32, k + 1⟩ := by
        rw [afterStep_eq p _ (by dsimp only)]
        rw [Date.succ_in_month y p.month.toU32 k (by omega)]
      rw [if_neg heq, hstep]
      exact ih (k + 1) (by omega) (by omega) (by omega)

/-- Downward in-month scan: if the pattern equals day `j` of its month
and the cursor is at day `k ≥ j` of that month, then `k - j + 1` loop
iterations suffice. -/
theorem NthWeekdayOfMonth.beforeLoop_scan_down (p : NthWeekdayOfMonth) (y : Int)
    (j : Nat) (hj1 : 1 ≤ j) (hq : p.eqDate ⟨y, p.month.toU32, j⟩ = true) :
    ∀ f k, j ≤ k → k - j + 1 ≤ f →
      ∃ e, p.beforeLoop f ⟨y, p.month.toU32, k⟩ = .found e := by
  intro f
  induction f with
  | zero => intro k _ hf; omega
  | succ f2 ih =>
    intro k hkj hf
    unfold beforeLoop
    by_cases heq : p.eqDate ⟨y, p.month.toU32, k⟩ = true
    · exact ⟨_, by rw [if_pos heq]⟩
    · have hkj2 : j < k := by
        rcases Nat.lt_or_ge j k with h | h
        · exact h
        · have : k = j := by omega
          subst this
          exact absurd hq heq
      have hstep : p.beforeStep ⟨y, p.month.toU32, k⟩ =
          some ⟨y, p.month.toU32, k - 1⟩ := by
        rw [beforeStep_eq p _ (by dsimp only)]
        rw [Date.pred_in_month y p.month.toU32 k (by omega)]
      rw [if_neg heq, hstep]
      exact ih (k - 1) (by omega) (by omega)

theorem daysInMonth_one (y : Int) : daysInMonth y 1 = 31 := rfl

/-- Forward walk: from any day of the target month, the scan either
matches inside the month or rolls over, jumps to the next year's target
month, and matches within its first 28 days. -/
theorem NthWeekdayOfMonth.afterLoop_walk_to_end (p : NthWeekdayOfMonth)
    (hr1 : 1 ≤ p.nth.toU32) (hr4 : p.nth.toU32 ≤ 4) :
    ∀ f y k, 1 ≤ k → k ≤ daysInMonth y p.month.toU32 →
      daysInMonth y p.month.toU32 - k + 33 ≤ f →
      ∃ e, p.afterLoop f ⟨y, p.month.toU32, k⟩ = .found e := by
  intro f
  induction f with
  | zero => intro y k _ _ hf; omega
  | succ f2 ih =>
    intro y k hk1 hkd hf
    have hb := Month.toU32_bounds p.month
    have hdim := daysInMonth_ge y p.month.toU32
    have hdim2 := daysInMonth_le y p.month.toU32
    unfold afterLoop
    by_cases heq : p.eqDate ⟨y, p.month.toU32, k⟩ = true
    · exact ⟨_, by rw [if_pos heq]⟩
    · rw [if_neg heq]
      by_cases hkend : k < daysInMonth y p.month.toU32
      · have hstep : p.afterStep ⟨y, p.month.toU32, k⟩ =
            some ⟨y, p.month.toU32, k + 1⟩ := by
          rw [afterStep_eq p _ (by dsimp only)]
          rw [Date.succ_in_month y p.month.toU32 k hkend]
        rw [hstep]
        exact ih y (k + 1) (by omega) (by omega) (by omega)
      · by_cases hpm : p.month.toU32 < 12
        · have hsucc : Date.succ ⟨y, p.month.toU32, k⟩ =
              ⟨y, p.month.toU32 + 1, 1⟩ := by
            unfold Date.succ
            dsimp only
            rw [if_neg (by omega), if_pos (by omega)]
          have hstep : p.afterStep ⟨y, p.month.toU32, k⟩ =
              some ⟨y, p.month.toU32 + 1, 1⟩ := by
            rw [afterStep_eq p _ (by dsimp only), hsucc]
          rw [hstep]
          obtain ⟨f3, rfl⟩ : ∃ f3, f2 = f3 + 1 := ⟨f2 - 1, by omega⟩
          unfold afterLoop
          by_cases heq2 : p.eqDate ⟨y, p.month.toU32 + 1, 1⟩ = true
          · exact ⟨_, by rw [if_pos heq2]⟩
          · rw [if_neg heq2]
            have hv2 : (Date.mk y (p.month.toU32 + 1) 1).Valid :=
              Date.valid_mk _ _ _ (by omega) (by omega) (by omega)
                (by have := daysInMonth_ge y (p.month.toU32 + 1); omega)
            have hstep2 : p.afterStep ⟨y, p.month.toU32 + 1, 1⟩ =
                some ⟨y + 1, p.month.toU32, 1⟩ := by
              rw [afterStep_gt p _ hv2 (by dsimp only; omega)]
            rw [hstep2]
            obtain ⟨j, hj1, hj28, hq⟩ := p.exists_rank_day hr1 hr4 (y + 1)
            exact p.afterLoop_scan_up (y + 1) j hj28 hq f3 1 (by omega) hj1
              (by omega)
        · have hsucc : Date.succ ⟨y, p.month.toU32, k⟩ = ⟨y + 1, 1, 1⟩ := by
            unfold Date.succ
            dsimp only
            rw [if_neg (by omega), if_neg (by omega)]
          have hstep : p.afterStep ⟨y, p.month.toU32, k⟩ =
              some ⟨y + 1, 1, 1⟩ := by
            rw [afterStep_eq p _ (by dsimp only), hsucc]
          rw [hstep]
          obtain ⟨f3, rfl⟩ : ∃ f3, f2 = f3 + 1 := ⟨f2 - 1, by omega⟩
          unfold afterLoop
          by_cases heq2 : p.eqDate ⟨y + 1, 1, 1⟩ = true
          · exact ⟨_, by rw [if_pos heq2]⟩
          · rw [if_neg heq2]
            have hv2 : (Date.mk (y + 1) 1 1).Valid :=
              Date.valid_mk _ _ _ (by omega) (by omega) (by omega)
                (by rw [daysInMonth_one]; omega)
            have hstep2 : p.afterStep ⟨y + 1, 1, 1⟩ =
                some ⟨y + 1, p.month.toU32, 1⟩ := by
              rw [afterStep_lt p _ hv2 (by dsimp only; omega)]
            rw [hstep2]
            obtain ⟨j, hj1, hj28, hq⟩ := p.exists_rank_day hr1 hr4 (y + 1)
            exact p.afterLoop_scan_up (y + 1) j hj28 hq f3 1 (by omega) hj1
              (by omega)

/-- Backward walk: from any day of the target month, the backward scan
either matches inside the month or falls through to the previous year's
target month and matches there. -/
theorem NthWeekdayOfMonth.beforeLoop_walk_to_start (p : NthWeekdayOfMonth)
    (hr1 : 1 ≤ p.nth.toU32) (hr4 : p.nth.toU32 ≤ 4) :
    ∀ f y k, 1 ≤ k → k ≤ daysInMonth y p.month.toU32 → k + 33 ≤ f →
      ∃ e, p.beforeLoop f ⟨y, p.month.toU32, k⟩ = .found e := by
  intro f
  induction f with
  | zero => intro y k _ _ hf; omega
  | succ f2 ih =>
    intro y k hk1 hkd hf
    have hb := Month.toU32_bounds p.month
    unfold beforeLoop
    by_cases heq : p.eqDate ⟨y, p.month.toU32, k⟩ = true
    · exact ⟨_, by rw [if_pos heq]⟩
    · rw [if_neg heq]
      by_cases hk2 : 2 ≤ k
      · have hstep : p.beforeStep ⟨y, p.month.toU32, k⟩ =
            some ⟨y, p.month.toU32, k - 1⟩ := by
          rw [beforeStep_eq p _ (by dsimp only)]
          rw [Date.pred_in_month y p.month.toU32 k hk2]
        rw [hstep]
        exact ih y (k - 1) (by omega) (by omega) (by omega)
      · have hk1' : k = 1 := by omega
        subst hk1'
        by_cases hpm : 2 ≤ p.month.toU32
        · have hpred : Date.pred ⟨y, p.month.toU32, 1⟩ =
              ⟨y, p.month.toU32 - 1, daysInMonth y (p.month.toU32 - 1)⟩ := by
            unfold Date.pred
            dsimp only
            rw [if_neg (by omega), if_pos (by omega)]
          have hstep : p.beforeStep ⟨y, p.month.toU32, 1⟩ =
              some ⟨y, p.month.toU32 - 1, daysInMonth y (p.month.toU32 - 1)⟩ := by
            rw [beforeStep_eq p _ (by dsimp only), hpred]
          rw [hstep]
          obtain ⟨f3, rfl⟩ : ∃ f3, f2 = f3 + 1 := ⟨f2 - 1, by omega⟩
          unfold beforeLoop
          by_cases heq2 : p.eqDate
              ⟨y, p.month.toU32 - 1, daysInMonth y (p.month.toU32 - 1)⟩ = true
          · exact ⟨_, by rw [if_pos heq2]⟩
          · rw [if_neg heq2]
            have hv2 : (Date.mk y (p.month.toU32 - 1)
                (daysInMonth y (p.month.toU32 - 1))).Valid :=
              Date.valid_mk _ _ _ (by omega) (by omega)
                (by have := daysInMonth_ge y (p.month.toU32 - 1); omega)
                (Nat.le_refl _)
            have hstep2 : p.beforeStep
                ⟨y, p.month.toU32 - 1, daysInMonth y (p.month.toU32 - 1)⟩ =
                some ⟨y - 1, p.month.toU32,
                  daysInMonth (y - 1) p.month.toU32⟩ := by
              rw [beforeStep_lt p _ hv2 (by dsimp only; omega)]
            rw [hstep2]
            obtain ⟨j, hj1, hj28, hq⟩ := p.exists_rank_day hr1 hr4 (y - 1)
            have hd3 := daysInMonth_ge (y - 1) p.month.toU32
            have hd4 := daysInMonth_le (y - 1) p.month.toU32
            exact p.beforeLoop_scan_down (y - 1) j hj1 hq f3
              (daysInMonth (y - 1) p.month.toU32) (by omega) (by omega)
        · have hpm1 : p.month.toU32 = 1 := by omega
          have hpred : Date.pred ⟨y, p.month.toU32, 1⟩ = ⟨y - 1, 12, 31⟩ := by
            unfold Date.pred
            dsimp only
            rw [if_neg (by omega), if_neg (by omega)]
          have hstep : p.beforeStep ⟨y, p.month.toU32, 1⟩ =
              some ⟨y - 1, 12, 31⟩ := by
            rw [beforeStep_eq p _ (by dsimp only), hpred]
          rw [hstep]
          obtain ⟨f3, rfl⟩ : ∃ f3, f2 = f3 + 1 := ⟨f2 - 1, by omega⟩
          unfold beforeLoop
          by_cases heq2 : p.eqDate ⟨y - 1, 12, 31⟩ = true
          · exact ⟨_, by rw [if_pos heq2]⟩
          · rw [if_neg heq2]
            have hok : (Date.mk (y - 1) p.month.toU32 31).Valid :=
              Date.valid_mk _ _ _ (by omega) (by omega) (by omega)
                (by rw [hpm1, daysInMonth_one])
            have hstep2 : p.beforeStep ⟨y - 1, 12, 31⟩ =
                some ⟨y - 1, p.month.toU32,
                  daysInMonth (y - 1) p.month.toU32⟩ := by
              rw [beforeStep_gt p _ (by dsimp only; omega) (by dsimp only; exact hok)]
            rw [hstep2]
            obtain ⟨j, hj1, hj28, hq⟩ := p.exists_rank_day hr1 hr4 (y - 1)
            have hd3 := daysInMonth_ge (y - 1) p.month.toU32
            have hd4 := daysInMonth_le (y - 1) p.month.toU32
            exact p.beforeLoop_scan_down (y - 1) j hj1 hq f3
              (daysInMonth (y - 1) p.month.toU32) (by omega) (by omega)

/-- For ordinals First..Fourth, `after` finds a match within 64 loop
iterations from any valid reference date. -/
theorem NthWeekdayOfMonth.after_found (p : NthWeekdayOfMonth)
    (hr4 : p.nth.toU32 ≤ 4) (d : Date) (hv : d.Valid) :
    ∀ f, 64 ≤ f → ∃ e, p.after f d = .found e := by
  intro f hf
  have hr1 := (NthWeekday.toU32_range p.nth).1
  have hb := Month.toU32_bounds p.month
  show ∃ e, p.afterLoop f d = .found e
  rcases Nat.lt_trichotomy d.month p.month.toU32 with h | h | h
  · obtain ⟨f2, rfl⟩ : ∃ f2, f = f2 + 1 := ⟨f - 1, by omega⟩
    unfold afterLoop
    by_cases heq : p.eqDate d = true
    · exact ⟨_, by rw [if_pos heq]⟩
    · rw [if_neg heq, afterStep_lt p d hv h]
      obtain ⟨j, hj1, hj28, hq⟩ := p.exists_rank_day hr1 hr4 d.year
      exact p.afterLoop_scan_up d.year j hj28 hq f2 1 (by omega) hj1 (by omega)
  · have hd : (⟨d.year, p.month.toU32, d.day⟩ : Date) = d := by rw [← h]
    have hdim := daysInMonth_le d.year p.month.toU32
    have hk1 : 1 ≤ d.day := hv.2.2.1
    have hk2 : d.day ≤ daysInMonth d.year d.month := hv.2.2.2
    rw [h] at hk2
    obtain ⟨e, he⟩ := p.afterLoop_walk_to_end hr1 hr4 f d.year d.day hk1 hk2
      (by omega)
    rw [hd] at he
    exact ⟨e, he⟩
  · obtain ⟨f2, rfl⟩ : ∃ f2, f = f2 + 1 := ⟨f - 1, by omega⟩
    unfold afterLoop
    by_cases heq : p.eqDate d = true
    · exact ⟨_, by rw [if_pos heq]⟩
    · rw [if_neg heq, afterStep_gt p d hv h]
      obtain ⟨j, hj1, hj28, hq⟩ := p.exists_rank_day hr1 hr4 (d.year + 1)
      exact p.afterLoop_scan_up (d.year + 1) j hj28 hq f2 1 (by omega) hj1
        (by omega)

/-- For ordinals First..Fourth, `before` settles within 64 loop
iterations from any valid reference date: it either finds a match or dies
on the `with_month` panic of its first jump — it never merely runs on. -/
theorem NthWeekdayOfMonth.before_settles (p : NthWeekdayOfMonth)
    (hr4 : p.nth.toU32 ≤ 4) (d : Date) (hv : d.Valid) :
    ∀ f, 64 ≤ f → p.before f d ≠ .outOfFuel := by
  intro f hf
  have hr1 := (NthWeekday.toU32_range p.nth).1
  have hb := Month.toU32_bounds p.month
  have hc0 : d.pred.Valid := Date.pred_valid hv
  show p.beforeLoop f d.pred ≠ .outOfFuel
  rcases Nat.lt_trichotomy d.pred.month p.month.toU32 with h | h | h
  · obtain ⟨f2, rfl⟩ : ∃ f2, f = f2 + 1 := ⟨f - 1, by omega⟩
    unfold beforeLoop
    by_cases heq : p.eqDate d.pred = true
    · rw [if_pos heq]; simp
    · rw [if_neg heq, beforeStep_lt p d.pred hc0 h]
      obtain ⟨j, hj1, hj28, hq⟩ := p.exists_rank_day hr1 hr4 (d.pred.year - 1)
      have hd3 := daysInMonth_ge (d.pred.year - 1) p.month.toU32
      have hd4 := daysInMonth_le (d.pred.year - 1) p.month.toU32
      obtain ⟨e, he⟩ := p.beforeLoop_scan_down (d.pred.year - 1) j hj1 hq f2
        (daysInMonth (d.pred.year - 1) p.month.toU32) (by omega) (by omega)
      dsimp only
      rw [he]; simp
  · have hd : (⟨d.pred.year, p.month.toU32, d.pred.day⟩ : Date) = d.pred := by
      rw [← h]
    have hdim := daysInMonth_le d.pred.year p.month.toU32
    have hk1 : 1 ≤ d.pred.day := hc0.2.2.1
    have hk2 : d.pred.day ≤ daysInMonth d.pred.year d.pred.month := hc0.2.2.2
    rw [h] at hk2
    obtain ⟨e, he⟩ := p.beforeLoop_walk_to_start hr1 hr4 f d.pred.year
      d.pred.day hk1 hk2 (by omega)
    rw [hd] at he
    rw [he]; simp
  · obtain ⟨f2, rfl⟩ : ∃ f2, f = f2 + 1 := ⟨f - 1, by omega⟩
    unfold beforeLoop
    by_cases heq : p.eqDate d.pred = true
    · rw [if_pos heq]; simp
    · rw [if_neg heq]
      by_cases hok : (Date.mk d.pred.year p.month.toU32 d.pred.day).Valid
      · rw [beforeStep_gt p d.pred h hok]
        obtain ⟨j, hj1, hj28, hq⟩ := p.exists_rank_day hr1 hr4 d.pred.year
        have hd3 := daysInMonth_ge d.pred.year p.month.toU32
        have hd4 := daysInMonth_le d.pred.year p.month.toU32
        obtain ⟨e, he⟩ := p.beforeLoop_scan_down d.pred.year j hj1 hq f2
          (daysInMonth d.pred.year p.month.toU32) (by omega) (by omega)
        dsimp only
        rw [he]; simp
      · rw [beforeStep_gt_panic p d.pred h hok]
        dsimp only
        simp

/-- Claim C4 (amended): for a pattern whose ordinal is a numbered rank
First..Fourth, both searches settle within 64 loop iterations from any
valid reference date — `after` always finds a match (the nth occurrence
exists within the first 28 days of every month) and `before` either finds
a match or hits the first-jump `with_month` panic.  For `Fifth` (and for
`Last`, whose equality can reject every day of a month) the search can
cross several year boundaries and 64 iterations do not suffice — see the
counterexample. -/
theorem c4_bounded_iterations (p : NthWeekdayOfMonth) (d : Date)
    (hv : d.Valid) (hr : p.nth.toU32 ≤ 4) :
    p.after 64 d ≠ .outOfFuel ∧ p.before 64 d ≠ .outOfFuel := by
  constructor
  · obtain ⟨e, he⟩ := p.after_found hr d hv 64 (Nat.le_refl 64)
    rw [he]; simp
  · exact p.before_settles hr d hv 64 (Nat.le_refl 64)

/-- Witness for the amended C4: Thanksgiving's pattern anchored at
2020-07-01 settles both ways within 64 iterations. -/
theorem c4_bounded_iterations_witness :
    NthWeekdayOfMonth.after ⟨.fourth, .thu, .november⟩ 64 ⟨2020, 7, 1⟩ ≠
        .outOfFuel ∧
      NthWeekdayOfMonth.before ⟨.fourth, .thu, .november⟩ 64 ⟨2020, 7, 1⟩ ≠
        .outOfFuel :=
  c4_bounded_iterations ⟨.fourth, .thu, .november⟩ ⟨2020, 7, 1⟩ (by decide)
    (by decide)

/-! ## The round trip (claim C7) -/

theorem NthWeekday.fromU32_small :
    ∀ c < 6, 1 ≤ c → ∀ n, NthWeekday.fromU32 c = some n →
      n ≠ .last ∧ n.toU32 = c := by
  decide

/-- The date→pattern conversion never produces `Last`: at most five
occurrences of a weekday fit in a month, so the counted ordinal is 1..5. -/
theorem NthWeekdayOfMonth.fromDate_ne_last (d : Date) (hv : d.Valid)
    (q : NthWeekdayOfMonth) (h : NthWeekdayOfMonth.fromDate d = some q) :
    q.nth ≠ .last := by
  have hd31 : d.day ≤ 31 := by
    have := daysInMonth_le d.year d.month
    have := hv.2.2.2
    omega
  have hc5 := countWeekdayUpTo_le_5 d.year d.month d.weekday d.day hd31
  have hc1 : 1 ≤ countWeekdayUpTo d.year d.month d.weekday d.day := by
    simpa [Date.weekday] using countWeekdayUpTo_pos d.year d.month d.day hv.2.2.1
  unfold fromDate at h
  cases hn : NthWeekday.fromU32
      (countWeekdayUpTo d.year d.month d.weekday d.day) with
  | none => rw [hn] at h; exact absurd h (by simp)
  | some n =>
    rw [hn] at h
    cases hmo : Month.fromU32 d.month with
    | none => rw [hmo] at h; exact absurd h (by simp)
    | some mo =>
      rw [hmo] at h
      obtain rfl : (⟨n, d.weekday, mo⟩ : NthWeekdayOfMonth) = q := by
        injection h
      exact (NthWeekday.fromU32_small _ (by omega) hc1 n hn).1

/-- If some day `j` of the month (with `k ≤ j ≤ 28`) lies within the
bound and has the sought weekday, the rollover-counting loop started at
day `k` counts at least one hit. -/
theorem islwCount_pos_in_month (w : Weekday) (bound : Date) (y : Int) (m : Nat) :
    ∀ f k j, 1 ≤ k → k ≤ j → j ≤ 28 →
      (∀ i, k ≤ i → i ≤ j → (⟨y, m, i⟩ : Date) ≤ bound) →
      Date.weekday ⟨y, m, j⟩ = w → j - k + 1 ≤ f →
      1 ≤ islwCount w bound f ⟨y, m, k⟩ := by
  intro f
  induction f with
  | zero => intro k j _ _ _ _ _ hf; omega
  | succ f2 ih =>
    intro k j hk1 hkj hj28 hle hw hf
    show 1 ≤ if (⟨y, m, k⟩ : Date) ≤ bound then
      (if (⟨y, m, k⟩ : Date).weekday = w then 1 else 0) +
        islwCount w bound f2 (Date.succ ⟨y, m, k⟩) else 0
    rw [if_pos (hle k (Nat.le_refl k) hkj)]
    by_cases hkj2 : k = j
    · subst hkj2
      rw [if_pos hw]
      omega
    · have hdim := daysInMonth_ge y m
      have hsucc : Date.succ ⟨y, m, k⟩ = ⟨y, m, k + 1⟩ :=
        Date.succ_in_month y m k (by omega)
      rw [hsucc]
      have := ih (k + 1) j (by omega) (by omega) hj28
        (fun i hi1 hi2 => hle i (by omega) hi2) hw (by omega)
      omega

/-- The first day of a month is never accepted by `is_last_weekday`: day
8 shares its weekday and is always scanned. -/
theorem Date.isLastWeekday_day_one (y : Int) (m : Nat) (h1 : 1 ≤ m)
    (h2 : m ≤ 12) : Date.isLastWeekday ⟨y, m, 1⟩ = false := by
  have hdim := daysInMonth_ge y m
  have hdim2 := daysInMonth_le y m
  unfold isLastWeekday
  have hld : (⟨y, m, 1⟩ : Date).lastDayOfMonth = ⟨y, m, daysInMonth y m⟩ :=
    Date.lastDayOfMonth_eq _ h1 h2
  rw [hld]
  have hsucc1 : Date.succ ⟨y, m, 1⟩ = ⟨y, m, 2⟩ :=
    Date.succ_in_month y m 1 (by omega)
  rw [hsucc1]
  have hw8 : Date.weekday ⟨y, m, 8⟩ = Date.weekday ⟨y, m, 1⟩ := by
    show Weekday.ofSun (weekdayNum y m 8) = Weekday.ofSun (weekdayNum y m 1)
    rw [weekdayNum_eq_wbase, weekdayNum_eq_wbase]
    congr 1
    omega
  have hle : ∀ i, 2 ≤ i → i ≤ 8 →
      (⟨y, m, i⟩ : Date) ≤ Date.succ ⟨y, m, daysInMonth y m⟩ := by
    intro i hi1 hi2
    have h3 : (⟨y, m, i⟩ : Date) ≤ ⟨y, m, daysInMonth y m⟩ := by
      rw [Date.le_def]; dsimp only; omega
    exact Date.le_trans h3 (Date.le_of_lt (Date.lt_succ _))
  have hpos := islwCount_pos_in_month (Date.weekday ⟨y, m, 1⟩)
    (Date.succ ⟨y, m, daysInMonth y m⟩) y m 40 2 8 (by omega) (by omega)
    (by omega) hle hw8 (by omega)
  rw [beq_eq_false_iff_ne]
  omega

/-- Search invariant for resolving from January 1: every visited
candidate is in the target month or is a first-of-month date. -/
theorem NthWeekdayOfMonth.afterLoop_inv (p : NthWeekdayOfMonth) :
    ∀ fuel c e, c.Valid → (c.month = p.month.toU32 ∨ c.day = 1) →
      p.afterLoop fuel c = .found e →
      e.Valid ∧ p.eqDate e = true ∧ (e.month = p.month.toU32 ∨ e.day = 1) := by
  intro fuel
  induction fuel with
  | zero => intro c e _ _ h; exact absurd h (by simp [afterLoop])
  | succ f ih =>
    intro c e hc hQ h
    unfold afterLoop at h
    by_cases heq : p.eqDate c = true
    · rw [if_pos heq] at h
      obtain rfl : c = e := by injection h
      exact ⟨hc, heq, hQ⟩
    · rw [if_neg heq] at h
      cases hstep : p.afterStep c with
      | none => rw [hstep] at h; exact absurd h (by simp)
      | some c2 =>
        rw [hstep] at h
        have hbm := Month.toU32_bounds p.month
        have hQ2 : c2.Valid ∧ (c2.month = p.month.toU32 ∨ c2.day = 1) := by
          rcases Nat.lt_trichotomy c.month p.month.toU32 with hcm | hcm | hcm
          · rw [afterStep_lt p c hc hcm] at hstep
            obtain rfl : c2 = ⟨c.year, p.month.toU32, 1⟩ :=
              (Option.some.inj hstep).symm
            exact ⟨Date.valid_mk _ _ _ (by omega) (by omega) (by omega)
              (by have := daysInMonth_ge c.year p.month.toU32; omega),
              Or.inl rfl⟩
          · rw [afterStep_eq p c hcm] at hstep
            obtain rfl : c2 = c.succ := (Option.some.inj hstep).symm
            refine ⟨Date.succ_valid hc, ?_⟩
            unfold Date.succ
            split_ifs with hA hB
            · exact Or.inl hcm
            · exact Or.inr rfl
            · exact Or.inr rfl
          · rw [afterStep_gt p c hc hcm] at hstep
            obtain rfl : c2 = ⟨c.year + 1, p.month.toU32, 1⟩ :=
              (Option.some.inj hstep).symm
            exact ⟨Date.valid_mk _ _ _ (by omega) (by omega) (by omega)
              (by have := daysInMonth_ge (c.year + 1) p.month.toU32; omega),
              Or.inl rfl⟩
        exact ih c2 e hQ2.1 hQ2.2 h

/-- Claim C7: resolving a numbered pattern to a date with `in_year` and
converting back through `From<NaiveDate>` reproduces the pattern exactly;
for a `Last` pattern the conversion instead yields the numeric rank the
resolved occurrence has within its month, with the original weekday and
month, and `Last` itself is never produced by the conversion. -/
theorem c7_round_trip (p : NthWeekdayOfMonth) (y : Int) (fuel : Nat) (e : Date) :
    (p.nth ≠ .last →
       HolidayDate.inYear (.nthDate p) fuel y = .found e →
       NthWeekdayOfMonth.fromDate e = some p) ∧
    (p.nth = .last →
       HolidayDate.inYear (.nthDate p) fuel y = .found e →
       ∃ q, NthWeekdayOfMonth.fromDate e = some q ∧ q.nth ≠ .last ∧
         q.weekday = p.weekday ∧ q.month = p.month ∧
         q.nth.toU32 = countWeekdayUpTo e.year e.month e.weekday e.day) ∧
    (∀ d2 q, d2.Valid → NthWeekdayOfMonth.fromDate d2 = some q →
       q.nth ≠ .last) := by
  have hj : (Date.mk y 1 1).Valid :=
    Date.valid_mk _ _ _ (by omega) (by omega) (by omega)
      (by rw [daysInMonth_one]; omega)
  refine ⟨?_, ?_, fun d2 q hv h => NthWeekdayOfMonth.fromDate_ne_last d2 hv q h⟩
  · intro hlast h
    have h2 : p.afterLoop fuel ⟨y, 1, 1⟩ = .found e := h
    obtain ⟨he, -, heq, -⟩ := p.afterLoop_spec hlast fuel ⟨y, 1, 1⟩ e hj h2
    rcases (p.eqDate_characterization e he).mp heq with
      ⟨hwd, ⟨hq, -⟩ | ⟨-, hmm, hcnt⟩⟩
    · exact absurd hq hlast
    · rw [hwd] at hcnt
      unfold NthWeekdayOfMonth.fromDate
      rw [hwd, hcnt, (NthWeekday.fromU32_eq_numbered _ _ hlast).mpr rfl,
        hmm, Month.fromU32_toU32]
  · intro hl h
    have h2 : p.afterLoop fuel ⟨y, 1, 1⟩ = .found e := h
    obtain ⟨he, heq, hQ⟩ :=
      p.afterLoop_inv fuel ⟨y, 1, 1⟩ e hj (Or.inr rfl) h2
    rcases (p.eqDate_characterization e he).mp heq with
      ⟨hwd, ⟨-, hislw⟩ | ⟨hq, -⟩⟩
    swap
    · exact absurd hl hq
    have hd1 : e.day ≠ 1 := by
      intro hday
      have hfalse : Date.isLastWeekday ⟨e.year, e.month, 1⟩ = false :=
        Date.isLastWeekday_day_one e.year e.month he.1 he.2.1
      rw [← hday] at hfalse
      have heta : (⟨e.year, e.month, e.day⟩ : Date) = e := rfl
      rw [heta] at hfalse
      rw [hfalse] at hislw
      exact absurd hislw (by simp)
    have hmm : e.month = p.month.toU32 := by
      rcases hQ with hQ | hQ
      · exact hQ
      · exact absurd hQ hd1
    have hd31 : e.day ≤ 31 := by
      have := daysInMonth_le e.year e.month
      have := he.2.2.2
      omega
    have hc5 := countWeekdayUpTo_le_5 e.year e.month e.weekday e.day hd31
    have hc1 : 1 ≤ countWeekdayUpTo e.year e.month e.weekday e.day := by
      simpa [Date.weekday] using countWeekdayUpTo_pos e.year e.month e.day he.2.2.1
    obtain ⟨n, hn⟩ := NthWeekday.fromU32_pos _ hc1
    obtain ⟨hnl, hnt⟩ := NthWeekday.fromU32_small _ (by omega) hc1 n hn
    obtain ⟨mo, hmo, hmoU⟩ := Month.fromU32_of_bounds e.month he.1 he.2.1
    have hmop : mo = p.month := Month.toU32_inj (by rw [hmoU, hmm])
    refine ⟨⟨n, e.weekday, mo⟩, ?_, hnl, ?_, ?_, ?_⟩
    · unfold NthWeekdayOfMonth.fromDate
      rw [hn, hmo]
    · exact hwd
    · exact hmop
    · exact hnt

/-- Witness for C7: the numbered half at Thanksgiving 2020, the `Last`
half at Last Monday of May 2021 (resolving to 2021-05-31, the fifth
Monday), and the never-`Last` conjunct at 2020-06-08. -/
theorem c7_round_trip_witness :
    NthWeekdayOfMonth.fromDate ⟨2020, 11, 26⟩ =
        some ⟨.fourth, .thu, .november⟩ ∧
      NthWeekdayOfMonth.fromDate ⟨2021, 5, 31⟩ =
        some ⟨.fifth, .mon, .may⟩ ∧
      NthWeekday.fifth ≠ NthWeekday.last := by
  refine ⟨(c7_round_trip ⟨.fourth, .thu, .november⟩ 2020 60 ⟨2020, 11, 26⟩).1
      (by decide) (by decide), ?_, by decide⟩
  obtain ⟨q, hq1, -, -, -, -⟩ :=
    (c7_round_trip ⟨.last, .mon, .may⟩ 2021 60 ⟨2021, 5, 31⟩).2.1
      rfl (by decide)
  have hq2 : NthWeekdayOfMonth.fromDate ⟨2021, 5, 31⟩ =
      some ⟨.fifth, .mon, .may⟩ := by decide
  exact hq2

end Holiday
